import Mathlib

/-!
# validx: rule combinators, field bindings and the validation engine

A shallow embedding of the Go package `validx` (rules.go, errors.go, field.go,
engine.go, builder.go) and theorems about it.

Conventions of the embedding

* A Go pointer that may be nil is an `Option`: `*RuleError`, `*Errors`, and a
  function value of type `Rule[T]` (nil when the slot was never assigned).
* A call of a function value either returns its results or does not return at
  all (calling a nil function value panics, and so may the logic of a
  user-supplied rule).  A call therefore yields an `Option`: `none` is "the
  call panics".  A panic is never recovered in the package, so it propagates
  through every caller.
* A slice is a `List`; `append` is `++ [x]`.
* `Validate` is embedded twice: under a schedule of whole loop iterations of its
  goroutines (`Schema.Validate`), and statement by statement, with the mutex and the wait
  group (`Invocation`); the second justifies the first.
-/

namespace validx

/-! ## rules.go -/

/-- The struct `RuleError`: a machine-friendly code and a human-friendly message. -/
structure RuleError where
  Code : String
  Message : String
deriving DecidableEq, Repr

/-- The pair of results `(bool, *RuleError)` of a rule. -/
abbrev Outcome := Bool × Option RuleError

/-- The type `Rule[T] func(value T) (bool, *RuleError)`.  The outer `Option` is
the function value itself (`none` is the nil function); the inner one is the
call (`none` when the body panics instead of returning). -/
abbrev Rule (T : Type) := Option (T → Option Outcome)

/-- The call expression `r(v)`: calling the nil function value panics. -/
def call {T : Type} (r : Rule T) (v : T) : Option Outcome :=
  match r with
  | none => none
  | some f => f v

/-- The helper `ok`: `return true, nil`. -/
def ok : Outcome := (true, none)

/-- The helper `fail`: `return false, &RuleError{Code: code, Message: msg}`. -/
def fail (code msg : String) : Outcome := (false, some ⟨code, msg⟩)

/-- The loop of `All`: `for _, r := range rules { if ok, err := r(v); !ok { return false, err } }`
followed by `return ok()`. -/
def All.loop {T : Type} (v : T) : List (Rule T) → Option Outcome
  | [] => some ok
  | r :: rules =>
    match call r v with
    | none => none
    | some (true, _) => All.loop v rules
    | some (false, err) => some (false, err)

/-- The combinator `All(rules...)`: a closure, never nil. -/
def All {T : Type} (rules : List (Rule T)) : Rule T :=
  some (fun v => All.loop v rules)

/-- The loop of `Any` with the local `lastErr`, and the two returns after it. -/
def Any.loop {T : Type} (v : T) : List (Rule T) → Option RuleError → Option Outcome
  | [], lastErr =>
    match lastErr with
    | some e => some (false, some e)
    | none => some (fail "any" "none of the rules matched")
  | r :: rules, lastErr =>
    match call r v with
    | none => none
    | some (true, _) => some ok
    | some (false, some err) => Any.loop v rules (some err)
    | some (false, none) => Any.loop v rules lastErr

/-- The combinator `Any(rules...)`: passes at once when `len(rules) == 0`,
otherwise runs the loop with `lastErr` nil. -/
def Any {T : Type} (rules : List (Rule T)) : Rule T :=
  some (fun v => if rules.length = 0 then some ok else Any.loop v rules none)

/-- The zero value `var zero T` of a Go type. -/
class ZeroValue (T : Type) where
  zero : T

instance : ZeroValue String := ⟨""⟩

instance : ZeroValue Int := ⟨0⟩

/-- The combinator `Optional(rule)` over a comparable type: `if v == zero { return ok() }`,
otherwise `return rule(v)`. -/
def Optional {T : Type} [DecidableEq T] [ZeroValue T] (rule : Rule T) : Rule T :=
  some (fun v => if v = ZeroValue.zero then some ok else call rule v)

/-- The rule `MinLen(min)`; `utf8.RuneCountInString` counts the runes of a valid string. -/
def MinLen (min : Int) : Rule String :=
  some (fun v =>
    if (v.length : Int) < min then some (fail "min_length" "minimum length not satisfied")
    else some ok)

/-- The rule `OneOf(options...)`: membership in the set built from the options. -/
def OneOf (options : List String) : Rule String :=
  some (fun v => if v ∈ options then some ok else some (fail "one_of" "value not allowed"))

/-- The rule `Min(min)`, at the number type `int`. -/
def Min (min : Int) : Rule Int :=
  some (fun v => if v < min then some (fail "min" "value below minimum") else some ok)

/-- The predicate `unicode.IsSpace` of the standard library, on the code point of a rune:
tab, line feed, vertical tab, form feed, carriage return, space, U+0085, U+00A0, and beyond
Latin-1 the runes of the Unicode property White_Space (U+1680, U+2000 to U+200A, U+2028,
U+2029, U+202F, U+205F, U+3000). -/
def isSpace (c : Char) : Bool :=
  let n := c.toNat
  (9 ≤ n && n ≤ 13) || n = 32 || n = 133 || n = 160 || n = 5760 ||
    (8192 ≤ n && n ≤ 8202) || n = 8232 || n = 8233 || n = 8239 || n = 8287 || n = 12288

/-- The function `strings.TrimSpace` of the standard library: the string without its
leading and trailing white space. -/
def TrimSpace (s : String) : String :=
  ⟨((s.data.dropWhile isSpace).reverse.dropWhile isSpace).reverse⟩

/-- The rule `RequiredString()`: `if strings.TrimSpace(v) == "" { return fail(...) }`. -/
def RequiredString : Rule String :=
  some (fun v => if TrimSpace v = "" then some (fail "required" "value is required") else some ok)

/-- The rule `Email()`.  `mail.ParseAddress` belongs to the standard library; `parses v`
stands for `err == nil` after `_, err := mail.ParseAddress(v)`. -/
def Email (parses : String → Bool) : Rule String :=
  some (fun v =>
    if v = "" then some ok
    else if parses v = false then some (fail "email" "invalid email format")
    else some ok)

/-- The type `regexp.Regexp` of the standard library, by its method `MatchString`. -/
structure Regexp where
  MatchString : String → Bool

/-- The rule `Pattern(rx)`, `rx` a `*regexp.Regexp` that may be nil. -/
def Pattern (rx : Option Regexp) : Rule String :=
  some (fun v =>
    match rx with
    | none => some (fail "pattern" "pattern is not configured")
    | some re =>
      if re.MatchString v = false then some (fail "pattern" "pattern mismatch")
      else some ok)

/-- A type that satisfies the constraint `comparable`, by what a map does with its values
as keys: `hashable x` is false when hashing `x` panics (an interface value whose dynamic
type is not comparable), and `eq a b` is the operator `a == b`, which need not be reflexive
(on floats NaN differs from itself). -/
class comparable (T : Type) where
  hashable : T → Bool
  eq : T → T → Bool

instance : comparable String := ⟨fun _ => true, fun a b => decide (a = b)⟩

instance : comparable Int := ⟨fun _ => true, fun a b => decide (a = b)⟩

instance : comparable Float := ⟨fun _ => true, fun a b => a == b⟩

/-- Values of the interface type `any` whose dynamic type is `int`, `string` or `[]int`.
The type `any` satisfies `comparable`, but a slice is not comparable: hashing an interface
value that holds one panics. -/
inductive AnyValue
  | int (n : Int)
  | string (s : String)
  | ints (xs : List Int)
deriving DecidableEq, Repr

instance : comparable AnyValue :=
  ⟨fun x => match x with
    | .ints _ => false
    | _ => true,
   fun a b => decide (a = b)⟩

/-- The loop of `Unique`.  `seen` holds the keys of the map.  The lookup `seen[item]` hashes
`item`, which panics when it cannot be hashed, and finds it when some key of the map is `==`
to it; `seen[item] = struct{}{}` then adds the key. -/
def Unique.loop {T : Type} [comparable T] : List T → List T → Option Outcome
  | [], _ => some ok
  | item :: v, seen =>
    if comparable.hashable item = false then none
    else if seen.any (fun k => comparable.eq k item) then
      some (fail "unique" "duplicate values found")
    else Unique.loop v (item :: seen)

/-- The rule `Unique()` over slices of a comparable type; `seen` starts as the empty map. -/
def Unique {T : Type} [comparable T] : Rule (List T) :=
  some (fun v => Unique.loop v [])

/-! ## errors.go -/

/-- The struct `Error`: one violation. -/
structure Error where
  Field : String
  Code : String
  Message : String
deriving DecidableEq, Repr

/-- The struct `Errors`: the report, a slice of violations. -/
structure Errors where
  list : List Error
deriving DecidableEq, Repr

/-- The method `Add`: `e.list = append(e.list, Error{field, code, msg})`. -/
def Errors.Add (e : Errors) (field code msg : String) : Errors :=
  ⟨e.list ++ [⟨field, code, msg⟩]⟩

/-- The method `Has`: `len(e.list) > 0`. -/
def Errors.Has (e : Errors) : Bool := decide (e.list.length > 0)

/-- The method `All`: the slice itself. -/
def Errors.All (e : Errors) : List Error := e.list

/-! ## field.go -/

/-- The struct `fieldRule[T, F]`: a name, a getter and the chain of rule slots.
The record `*T` handed to the getter is a non-nil pointer, and the getter returns. -/
structure fieldRule (T F : Type) where
  name : String
  getter : T → F
  rules : List (Rule F)

/-- The interface `schemaField[T]`: its one implementation is `*fieldRule[T, F]`, for any `F`. -/
structure schemaField (T : Type) where
  F : Type
  field : fieldRule T F

/-- The body of the loop of `fieldRule.validate` for one slot `rule` of the chain,
on the extracted value `val`.  `mutex.Lock()` and `mutex.Unlock()` bracket each
`errs.Add`, so the append is one indivisible update of the report. -/
def fieldRule.visit {F : Type} (name : String) (val : F) (rule : Rule F) (errs : Errors) :
    Option Errors :=
  match rule with
  | none => some (errs.Add name "invalid_rule" "rule is not configured")
  | some g =>
    match g val with
    | none => none
    | some (true, _) => some errs
    | some (false, ruleErr) =>
      let code := "invalid"
      let msg := "validation failed"
      match ruleErr with
      | none => some (errs.Add name code msg)
      | some e =>
        let code := if e.Code ≠ "" then e.Code else code
        let msg := if e.Message ≠ "" then e.Message else msg
        some (errs.Add name code msg)

/-- The loop `for _, rule := range f.rules` of `fieldRule.validate`. -/
def fieldRule.loop {F : Type} (name : String) (val : F) : List (Rule F) → Errors → Option Errors
  | [], errs => some errs
  | rule :: rules, errs => (fieldRule.visit name val rule errs).bind (fieldRule.loop name val rules)

/-- The method `validate`: `val := f.getter(obj)`, then the loop over `f.rules`. -/
def fieldRule.validate {T F : Type} (f : fieldRule T F) (obj : T) (errs : Errors) : Option Errors :=
  fieldRule.loop f.name (f.getter obj) f.rules errs

/-- The interface method `validate`, dispatched to the field binding behind it. -/
def schemaField.validate {T : Type} (sf : schemaField T) (obj : T) (errs : Errors) : Option Errors :=
  sf.field.validate obj errs

/-! ## engine.go -/

/-- Modelled from the spec: the struct `Schema[T]`, whose declaration is not among the
sources; the spec gives it as the ordered sequence of field bindings, and the code
reads and appends to its slice `fields` of `schemaField[T]`. -/
structure Schema (T : Type) where
  fields : List (schemaField T)

/-- A goroutine started by `Validate`, running `field.validate(obj, errs, &mutex)`:
the name of its binding, its local `val`, and the slots its loop has still to visit. -/
structure Task where
  F : Type
  name : String
  val : F
  rest : List (Rule F)

/-- The goroutine `go func(field schemaField[T]) { ... }(f)` at its start. -/
def Task.start {T : Type} (obj : T) (sf : schemaField T) : Task :=
  ⟨sf.F, sf.field.name, sf.field.getter obj, sf.field.rules⟩

/-- The state of one `Validate` call while its goroutines run: the shared report and the goroutines. -/
structure Run where
  errs : Errors
  tasks : List Task

/-- One scheduling step: goroutine `i` performs the next iteration of its loop on the
shared report.  A goroutine that has finished (or an index that names none) does nothing. -/
def Run.step (r : Run) (i : Nat) : Option Run :=
  match r.tasks[i]? with
  | none => some r
  | some t =>
    match t.rest with
    | [] => some r
    | rule :: rest =>
      match fieldRule.visit t.name t.val rule r.errs with
      | none => none
      | some errs => some ⟨errs, r.tasks.set i ⟨t.F, t.name, t.val, rest⟩⟩

/-- The run under a schedule: the list of the goroutines the scheduler picks, in order. -/
def Run.sched : List Nat → Run → Option Run
  | [], r => some r
  | i :: schedule, r => (r.step i).bind (Run.sched schedule)

/-- The barrier `wg.Wait()`: the call goes on only when every goroutine has finished, so
whatever iterations the schedule has left are performed, goroutine after goroutine. -/
def Run.wait : List Task → Errors → Option Errors
  | [], errs => some errs
  | t :: tasks, errs => (fieldRule.loop t.name t.val t.rest errs).bind (Run.wait tasks)

/-- The method `Validate` under a schedule of its goroutines: a fresh report, one goroutine
for each field, the barrier, then `if errs.Has() { return errs }` and `return nil`.
The outer `Option` is the call (`none` when a rule panics), the inner one the `*Errors`. -/
def Schema.Validate {T : Type} (s : Schema T) (obj : T) (schedule : List Nat) :
    Option (Option Errors) :=
  match Run.sched schedule ⟨⟨[]⟩, s.fields.map (Task.start obj)⟩ with
  | none => none
  | some r =>
    match Run.wait r.tasks r.errs with
    | none => none
    | some errs => if errs.Has then some (some errs) else some none

/-! ## engine.go and field.go, statement by statement

The run of one call of `Validate` with its goroutines taken one statement at a time: the
calls of `mutex.Lock` and `mutex.Unlock`, the read and the store inside `errs.Add`, and the
counter of the wait group are steps and state of their own. -/

/-- Where a goroutine stands in `fieldRule.validate`: at the head of the loop; with a
violation in hand before `mutex.Lock()`; after `Lock`, before `errs.Add`; inside `Add`,
after `e.list` was read (`old`) and before the appended slice is stored; after `Add`, before
`mutex.Unlock()`; returned, with the deferred `wg.Done()` performed. -/
inductive Phase
  | loop
  | lock (x : Error)
  | add (x : Error)
  | store (old : List Error) (x : Error)
  | unlock
  | done
deriving DecidableEq, Repr

/-- A goroutine of `Validate`: its binding, value and slots still to visit, and where it stands. -/
structure Goroutine where
  task : Task
  phase : Phase

/-- What the goroutines of one call share: the report `errs`, the mutex (with the
goroutine that locked it, when it is locked) and the counter of the wait group `wg`. -/
structure Shared where
  errs : Errors
  mutex : Option Nat
  wg : Nat

/-- One statement of goroutine `i`.  At the head of the loop it takes the next slot (and
goes to `Lock` with the violation when the slot is unset or its rule returns `false`), or
returns when no slot is left (`wg.Done()` panics on a counter that would go negative).
`Lock` goes on only when the mutex is free; a goroutine that cannot go on stays where it is. -/
def Goroutine.act (g : Goroutine) (i : Nat) (sh : Shared) : Option (Goroutine × Shared) :=
  match g.phase with
  | .loop =>
    match g.task.rest with
    | [] =>
      if sh.wg = 0 then none
      else some (⟨g.task, .done⟩, ⟨sh.errs, sh.mutex, sh.wg - 1⟩)
    | rule :: rest =>
      match rule with
      | none =>
        some (⟨⟨g.task.F, g.task.name, g.task.val, rest⟩,
          .lock ⟨g.task.name, "invalid_rule", "rule is not configured"⟩⟩, sh)
      | some f =>
        match f g.task.val with
        | none => none
        | some (true, _) => some (⟨⟨g.task.F, g.task.name, g.task.val, rest⟩, .loop⟩, sh)
        | some (false, ruleErr) =>
          let code := "invalid"
          let msg := "validation failed"
          match ruleErr with
          | none =>
            some (⟨⟨g.task.F, g.task.name, g.task.val, rest⟩,
              .lock ⟨g.task.name, code, msg⟩⟩, sh)
          | some e =>
            let code := if e.Code ≠ "" then e.Code else code
            let msg := if e.Message ≠ "" then e.Message else msg
            some (⟨⟨g.task.F, g.task.name, g.task.val, rest⟩,
              .lock ⟨g.task.name, code, msg⟩⟩, sh)
  | .lock x =>
    match sh.mutex with
    | some _ => some (g, sh)
    | none => some (⟨g.task, .add x⟩, ⟨sh.errs, some i, sh.wg⟩)
  | .add x => some (⟨g.task, .store sh.errs.list x⟩, sh)
  | .store old x => some (⟨g.task, .unlock⟩, ⟨⟨old ++ [x]⟩, sh.mutex, sh.wg⟩)
  | .unlock => some (⟨g.task, .loop⟩, ⟨sh.errs, none, sh.wg⟩)
  | .done => some (g, sh)

/-- The state of one call of `Validate`: the record, the fields its loop has still to start
a goroutine for, the value it has returned (`none` while it runs), what the goroutines
share, and the goroutines started so far. -/
structure Invocation (T : Type) where
  obj : T
  todo : List (schemaField T)
  result : Option (Option Errors)
  shared : Shared
  tasks : List Goroutine

/-- The call at its start: `errs := &Errors{}`, `wg := sync.WaitGroup{}`, `mutex := sync.Mutex{}`. -/
def Invocation.start {T : Type} (s : Schema T) (obj : T) : Invocation T :=
  ⟨obj, s.fields, none, ⟨⟨[]⟩, none, 0⟩, []⟩

/-- One step of the body of `Validate`: `wg.Add(1)` and the `go` statement for the next
field; or, the loop over, `wg.Wait()`, which goes on only when the counter is zero, followed
by `if errs.Has() { return errs }` and `return nil`. -/
def Invocation.stepMain {T : Type} (c : Invocation T) : Invocation T :=
  match c.result with
  | some _ => c
  | none =>
    match c.todo with
    | f :: todo =>
      ⟨c.obj, todo, none, ⟨c.shared.errs, c.shared.mutex, c.shared.wg + 1⟩,
        c.tasks ++ [⟨Task.start c.obj f, .loop⟩]⟩
    | [] =>
      if c.shared.wg = 0 then
        ⟨c.obj, [], some (if c.shared.errs.Has then some c.shared.errs else none),
          c.shared, c.tasks⟩
      else c

/-- One statement of goroutine `i` of the call (nothing when there is no such goroutine). -/
def Invocation.stepTask {T : Type} (c : Invocation T) (i : Nat) : Option (Invocation T) :=
  match c.tasks[i]? with
  | none => some c
  | some g =>
    match g.act i c.shared with
    | none => none
    | some (g', sh) => some ⟨c.obj, c.todo, c.result, sh, c.tasks.set i g'⟩

/-- One step of the call: of the body of `Validate` (`none`) or of goroutine `i` (`some i`). -/
def Invocation.step {T : Type} (c : Invocation T) (a : Option Nat) : Option (Invocation T) :=
  match a with
  | none => some c.stepMain
  | some i => c.stepTask i

/-- The run of a call under a schedule, the list of who takes the next step. -/
def Invocation.run {T : Type} : List (Option Nat) → Invocation T → Option (Invocation T)
  | [], c => some c
  | a :: schedule, c => (c.step a).bind (Invocation.run schedule)

/-- Several calls of `Validate` running at once, each with the state it created: a step
`(k, a)` is the step `a` of call `k`. -/
def runCalls {T : Type} :
    List (Nat × Option Nat) → List (Invocation T) → Option (List (Invocation T))
  | [], calls => some calls
  | (k, a) :: schedule, calls =>
    match calls[k]? with
    | none => runCalls schedule calls
    | some c =>
      match c.step a with
      | none => none
      | some c' => runCalls schedule (calls.set k c')

/-- The steps of call `k` in a schedule of several calls. -/
def stepsOf (k : Nat) (schedule : List (Nat × Option Nat)) : List (Option Nat) :=
  schedule.filterMap (fun ka => if ka.1 = k then some ka.2 else none)

/-! ## builder.go and the registration functions of field.go -/

/-- The struct `Builder[T]`, holding the schema under construction. -/
structure Builder (T : Type) where
  schema : Schema T

/-- The function `New[T]()`: a builder around the empty schema `&Schema[T]{}`. -/
def New {T : Type} : Builder T := ⟨⟨[]⟩⟩

/-- The method `Schema()` of the builder. -/
def Builder.Schema {T : Type} (b : Builder T) : Schema T := b.schema

/-- The struct `FieldBuilder[T, F]`.  Its pointer `field *fieldRule[T, F]` is the position
`index` of the binding in the slice `fields` of the schema, the one place that holds the
binding, together with the binding it points to, at its static type `F`.  The pointer
`schema` is only stored by the code, never read; the schema is passed alongside. -/
structure FieldBuilder (T F : Type) where
  index : Nat
  field : fieldRule T F

/-- The handle points into the schema: the slot `index` of `fields` holds its binding. -/
def FieldBuilder.pointsTo {T F : Type} (f : FieldBuilder T F) (s : Schema T) : Prop :=
  s.fields[f.index]? = some ⟨F, f.field⟩

/-- The function `Field(s, name, getter)`: `fr := &fieldRule{name, getter}`,
`s.fields = append(s.fields, fr)`, and the handle on `fr`.  The result is the handle and
the schema after the call. -/
def Field {T F : Type} (s : Schema T) (name : String) (getter : T → F) :
    FieldBuilder T F × Schema T :=
  let fr : fieldRule T F := ⟨name, getter, []⟩
  (⟨s.fields.length, fr⟩, ⟨s.fields ++ [⟨F, fr⟩]⟩)

/-- The method `Use(rule)`: `f.field.rules = append(f.field.rules, rule)`, `return f`.
The write goes through the pointer, so the binding in the schema changes with it. -/
def FieldBuilder.Use {T F : Type} (f : FieldBuilder T F) (rule : Rule F) (s : Schema T) :
    FieldBuilder T F × Schema T :=
  let fr : fieldRule T F := ⟨f.field.name, f.field.getter, f.field.rules ++ [rule]⟩
  (⟨f.index, fr⟩, ⟨s.fields.set f.index ⟨F, fr⟩⟩)

/-- The chained calls `.Use(r1).Use(r2)...Use(rn)` on a handle. -/
def FieldBuilder.UseAll {T F : Type} :
    List (Rule F) → FieldBuilder T F × Schema T → FieldBuilder T F × Schema T
  | [], st => st
  | rule :: rules, st => FieldBuilder.UseAll rules (st.1.Use rule st.2)

/-! ## engine_test.go -/

/-- The struct `testUser` of the tests. -/
structure testUser where
  Email : String
  Age : Int
  Roles : List String

/-- The schema of `TestValidateAppliesRulesAcrossTypes`, registered as the test does:
"email" with `RequiredString()` then `Email()`, "age" with `Min(18)`, "roles" with
`Unique[string]()`. -/
def testSchema (parses : String → Bool) : Schema testUser :=
  let s₀ : Schema testUser := New.Schema
  let st₁ := FieldBuilder.UseAll [RequiredString, Email parses]
    (Field s₀ "email" (fun u => u.Email))
  let st₂ := FieldBuilder.UseAll [Min 18] (Field st₁.2 "age" (fun u => u.Age))
  let st₃ := FieldBuilder.UseAll [Unique] (Field st₂.2 "roles" (fun u => u.Roles))
  st₃.2

/-! ## Notions used to state the properties -/

/-- A rule passes on a value: its call returns `true` (whatever error comes with it). -/
def passes {T : Type} (r : Rule T) (v : T) : Prop := ∃ e, call r v = some (true, e)

/-- A rule fails on a value with the error `e`: its call returns `(false, e)`. -/
def failsWith {T : Type} (r : Rule T) (v : T) (e : Option RuleError) : Prop :=
  call r v = some (false, e)

/-- A slot of a chain does not panic on a value: it is unset (and so never called), or its call returns. -/
def slotReturns {F : Type} (val : F) (slot : Rule F) : Prop :=
  ∀ g, slot = some g → ∃ o, g val = some o

/-- A slot of a chain is unset, or its rule returns `false` on the value. -/
def slotFails {F : Type} (val : F) (slot : Rule F) : Bool :=
  match slot with
  | none => true
  | some g =>
    match g val with
    | some (false, _) => true
    | _ => false

/-- What one visit of a slot appends to the report. -/
def fieldRule.appended {F : Type} (name : String) (val : F) (slot : Rule F) : List Error :=
  match fieldRule.visit name val slot ⟨[]⟩ with
  | some errs => errs.list
  | none => []

/-- The violations a goroutine has still to append. -/
def Task.pending (t : Task) : List Error :=
  (t.rest.map (fieldRule.appended t.name t.val)).flatten

/-- No slot a goroutine has still to visit panics. -/
def Task.returns (t : Task) : Prop := ∀ slot ∈ t.rest, slotReturns t.val slot

/-- No slot of a field binding panics on the record. -/
def schemaField.returns {T : Type} (obj : T) (sf : schemaField T) : Prop :=
  ∀ slot ∈ sf.field.rules, slotReturns (sf.field.getter obj) slot

/-- The violations a field binding appends when its `validate` runs alone on a fresh report. -/
def schemaField.alone {T : Type} (obj : T) (sf : schemaField T) : List Error :=
  match sf.validate obj ⟨[]⟩ with
  | some errs => errs.list
  | none => []

/-- An example schema over records (code, age): the field "code" with the chain
`MinLen(3)`, `OneOf("abc", "x")`, and the field "age" with the chain `Min(18)`. -/
def exampleSchema : Schema (String × Int) :=
  ⟨[⟨String, ⟨"code", fun u => u.1, [MinLen 3, OneOf ["abc", "x"]]⟩⟩,
    ⟨Int, ⟨"age", fun u => u.2, [Min 18]⟩⟩]⟩

/-- The goroutine is between `mutex.Lock()` and `mutex.Unlock()`. -/
def Phase.critical : Phase → Bool
  | .add _ => true
  | .store _ _ => true
  | .unlock => true
  | _ => false

/-- The goroutine has not returned yet. -/
def Phase.live : Phase → Bool
  | .done => false
  | _ => true

/-- The violation a goroutine has in hand, found and not yet stored in the report. -/
def Phase.inHand : Phase → List Error
  | .lock x => [x]
  | .add x => [x]
  | .store _ x => [x]
  | _ => []

/-- The violations a goroutine has still to store in the report: none once it has returned. -/
def Goroutine.pending (g : Goroutine) : List Error :=
  match g.phase with
  | .done => []
  | phase => phase.inHand ++ g.task.pending

/-- The violations still to store in the report, goroutine by goroutine, fields not yet
started included. -/
def Invocation.pendings {T : Type} (c : Invocation T) : List (List Error) :=
  c.tasks.map Goroutine.pending ++ c.todo.map (fun f => (Task.start c.obj f).pending)

/-- The list `out` is an interleaving of the lists `ls`: it is made of the elements of
each list of `ls`, those of one list in their order. -/
inductive Interleaving {α : Type} : List (List α) → List α → Prop
  | done {ls : List (List α)} : (∀ l ∈ ls, l = []) → Interleaving ls []
  | pick {ls : List (List α)} {i : Nat} {x : α} {l out : List α} :
      ls[i]? = some (x :: l) → Interleaving (ls.set i l) out → Interleaving ls (x :: out)

/-- The violations of a result of `Validate`: nil stands for no violation. -/
def violations (res : Option Errors) : List Error :=
  match res with
  | none => []
  | some errs => errs.All

/-- A bound on the statements a goroutine has still to run: five for each slot left, and
what is left of the slot in hand. -/
def Goroutine.work (g : Goroutine) : Nat :=
  match g.phase with
  | .loop => 5 * g.task.rest.length + 1
  | .lock _ => 5 * g.task.rest.length + 5
  | .add _ => 5 * g.task.rest.length + 4
  | .store _ _ => 5 * g.task.rest.length + 3
  | .unlock => 5 * g.task.rest.length + 2
  | .done => 0

/-- A bound on the steps a call has still to take before it returns. -/
def Invocation.work {T : Type} (c : Invocation T) : Nat :=
  (if c.result = none then 1 else 0)
    + (c.todo.map (fun f => 5 * f.field.rules.length + 2)).sum
    + (c.tasks.map Goroutine.work).sum

/-- No slot the call has still to visit panics on the record. -/
def Invocation.returns {T : Type} (c : Invocation T) : Prop :=
  (∀ g ∈ c.tasks, g.task.returns) ∧ ∀ f ∈ c.todo, f.returns c.obj

/-- A schedule of the statements of `Validate` on `exampleSchema`: both goroutines are
started, the second one finds the mutex locked by the first and waits, and the call returns. -/
def exampleSteps : List (Option Nat) :=
  [none, none, some 0, some 0, some 1, some 1, some 0, some 0, some 0, some 1, some 1, some 1,
    some 1, some 0, some 0, some 0, some 0, some 0, some 0, some 1, none]

/-- What holds in every state of a call of `Validate`, `P` being the violations the field
bindings have to report at its start: a goroutine is between `Lock` and `Unlock` exactly
when it is the one that locked the mutex; the slice a goroutine read inside `Add` is still
the slice of the report; the counter of the wait group is the number of goroutines that
have not returned; once the call has returned no field is left to start, the counter is
zero and the value returned is the report, or nil for the empty report; the goroutines and
the fields still to start are as many as the lists of `P`; and the report, followed by any
interleaving of what is still to store, is an interleaving of `P`. -/
structure Invocation.Inv {T : Type} (P : List (List Error)) (c : Invocation T) : Prop where
  held : ∀ (i : Nat) (g : Goroutine), c.tasks[i]? = some g →
    (g.phase.critical = true ↔ c.shared.mutex = some i)
  owner : ∀ i : Nat, c.shared.mutex = some i → i < c.tasks.length
  fresh : ∀ (i : Nat) (g : Goroutine) (old : List Error) (x : Error),
    c.tasks[i]? = some g → g.phase = Phase.store old x → old = c.shared.errs.list
  count : c.shared.wg = c.tasks.countP (fun g => g.phase.live)
  returned : ∀ res, c.result = some res →
    c.todo = [] ∧ c.shared.wg = 0 ∧
      res = (if c.shared.errs.Has then some c.shared.errs else none)
  size : c.tasks.length + c.todo.length = P.length
  sofar : ∀ out, Interleaving c.pendings out → Interleaving P (c.shared.errs.list ++ out)

/-! ## Properties of the combinators -/

theorem All_loop_skips_passing {T : Type} (v : T) (pre rest : List (Rule T))
    (hpre : ∀ p ∈ pre, passes p v) : All.loop v (pre ++ rest) = All.loop v rest := by
  induction pre with
  | nil => rfl
  | cons p pre ih =>
    obtain ⟨e, he⟩ := hpre p (List.mem_cons_self _ _)
    have ih' := ih (fun q hq => hpre q (List.mem_cons_of_mem _ hq))
    simp only [List.cons_append, All.loop, he]
    exact ih'

/-- C1: `All(rules)(v)` runs the rules in the given order.  When the rules before `r` pass
and `r` fails with `err`, the result is exactly `(false, err)`, whatever comes after `r`
in the list (a nil function or a rule that would panic is not called); a rule before the
first failure is called (its panic is the panic of `All`); and when every rule passes,
the empty list included, the result is `(true, nil)`. -/
theorem All_returns_first_failure {T : Type} (rules : List (Rule T)) (v : T) :
    (∀ pre r rest err, rules = pre ++ r :: rest → (∀ p ∈ pre, passes p v) →
        failsWith r v err → call (All rules) v = some (false, err)) ∧
    (∀ pre r rest, rules = pre ++ r :: rest → (∀ p ∈ pre, passes p v) →
        call r v = none → call (All rules) v = none) ∧
    ((∀ p ∈ rules, passes p v) → call (All rules) v = some (true, none)) := by
  refine ⟨?_, ?_, ?_⟩
  · intro pre r rest err hrules hpre hr
    subst hrules
    show All.loop v (pre ++ r :: rest) = _
    rw [All_loop_skips_passing v pre _ hpre]
    unfold failsWith at hr
    simp only [All.loop, hr]
  · intro pre r rest hrules hpre hr
    subst hrules
    show All.loop v (pre ++ r :: rest) = _
    rw [All_loop_skips_passing v pre _ hpre]
    simp only [All.loop, hr]
  · intro hall
    show All.loop v rules = _
    have h := All_loop_skips_passing v rules [] hall
    rw [List.append_nil] at h
    rw [h]
    rfl

theorem All_returns_first_failure_witness :
    call (All [MinLen 1, MinLen 8, none]) "ab"
      = some (false, some ⟨"min_length", "minimum length not satisfied"⟩) ∧
    call (All [MinLen 1, MinLen 2]) "ab" = some (true, none) ∧
    call (All ([] : List (Rule String))) "ab" = some (true, none) :=
  ⟨(All_returns_first_failure [MinLen 1, MinLen 8, none] "ab").1 [MinLen 1] (MinLen 8) [none] _ rfl
      (by intro p hp; simp only [List.mem_singleton] at hp; subst hp; exact ⟨none, by decide⟩)
      (by unfold failsWith; decide),
   (All_returns_first_failure [MinLen 1, MinLen 2] "ab").2.2
      (by
        intro p hp
        simp only [List.mem_cons, List.mem_singleton, List.not_mem_nil, or_false] at hp
        rcases hp with hp | hp <;> subst hp <;> exact ⟨none, by decide⟩),
   (All_returns_first_failure ([] : List (Rule String)) "ab").2.2
      (by intro p hp; cases hp)⟩

theorem Any_loop_of_passing {T : Type} (v : T) (rules : List (Rule T)) (last : Option RuleError)
    (hret : ∀ r ∈ rules, ∃ o, call r v = some o) (hpass : ∃ r ∈ rules, passes r v) :
    Any.loop v rules last = some (true, none) := by
  induction rules generalizing last with
  | nil => obtain ⟨r, hr, _⟩ := hpass; cases hr
  | cons r rules ih =>
    obtain ⟨o, ho⟩ := hret r (List.mem_cons_self _ _)
    have hret' : ∀ q ∈ rules, ∃ o, call q v = some o :=
      fun q hq => hret q (List.mem_cons_of_mem _ hq)
    obtain ⟨b, e⟩ := o
    cases b with
    | true => simp only [Any.loop, ho]; rfl
    | false =>
      have hpass' : ∃ q ∈ rules, passes q v := by
        obtain ⟨q, hq, hqp⟩ := hpass
        rcases List.mem_cons.mp hq with h | h
        · subst h
          obtain ⟨e', he'⟩ := hqp
          rw [ho] at he'
          cases he'
        · exact ⟨q, h, hqp⟩
      cases e with
      | none => simp only [Any.loop, ho]; exact ih last hret' hpass'
      | some err => simp only [Any.loop, ho]; exact ih (some err) hret' hpass'

theorem Any_loop_skips_silent {T : Type} (v : T) (rules rest : List (Rule T))
    (last : Option RuleError) (hnil : ∀ r ∈ rules, failsWith r v none) :
    Any.loop v (rules ++ rest) last = Any.loop v rest last := by
  induction rules with
  | nil => rfl
  | cons r rules ih =>
    have hr : call r v = some (false, none) := hnil r (List.mem_cons_self _ _)
    simp only [List.cons_append, Any.loop, hr]
    exact ih (fun q hq => hnil q (List.mem_cons_of_mem _ hq))

theorem Any_loop_keeps_later {T : Type} (v : T) (pre rest : List (Rule T)) (r : Rule T)
    (e : RuleError) (last : Option RuleError) (hpre : ∀ p ∈ pre, ∃ e', failsWith p v e')
    (hr : failsWith r v (some e)) :
    Any.loop v (pre ++ r :: rest) last = Any.loop v rest (some e) := by
  induction pre generalizing last with
  | nil =>
    have hr' : call r v = some (false, some e) := hr
    simp only [List.nil_append, Any.loop, hr']
  | cons p pre ih =>
    obtain ⟨e', he'⟩ := hpre p (List.mem_cons_self _ _)
    have hp : call p v = some (false, e') := he'
    have hpre' : ∀ q ∈ pre, ∃ e', failsWith q v e' :=
      fun q hq => hpre q (List.mem_cons_of_mem _ hq)
    cases e' with
    | none => simp only [List.cons_append, Any.loop, hp]; exact ih last hpre'
    | some err => simp only [List.cons_append, Any.loop, hp]; exact ih (some err) hpre'

theorem Any_loop_of_failing {T : Type} (v : T) (rules : List (Rule T)) (last : Option RuleError)
    (hfail : ∀ r ∈ rules, ∃ e, failsWith r v e) :
    ∃ e, Any.loop v rules last = some (false, some e) := by
  induction rules generalizing last with
  | nil =>
    cases last with
    | none => exact ⟨_, rfl⟩
    | some e => exact ⟨e, rfl⟩
  | cons r rules ih =>
    obtain ⟨e', he'⟩ := hfail r (List.mem_cons_self _ _)
    have hr : call r v = some (false, e') := he'
    have hfail' : ∀ q ∈ rules, ∃ e, failsWith q v e :=
      fun q hq => hfail q (List.mem_cons_of_mem _ hq)
    cases e' with
    | none => simp only [Any.loop, hr]; exact ih last hfail'
    | some err => simp only [Any.loop, hr]; exact ih (some err) hfail'

theorem Any_call_nonempty {T : Type} (v : T) (rules : List (Rule T)) (hne : rules ≠ []) :
    call (Any rules) v = Any.loop v rules none := by
  have hlen : ¬ rules.length = 0 := fun h => hne (List.length_eq_zero.mp h)
  show (if rules.length = 0 then some ok else Any.loop v rules none) = _
  rw [if_neg hlen]

/-- C2: when every rule of the list returns on `v`, `Any(rules)(v)` returns, and it passes
if and only if the list is empty or some rule of the list passes on `v`; and whenever it
passes its error is nil, whatever error the passing rule returned. -/
theorem Any_passes_iff {T : Type} (rules : List (Rule T)) (v : T)
    (hret : ∀ r ∈ rules, ∃ o, call r v = some o) :
    ∃ b e, call (Any rules) v = some (b, e) ∧
      (b = true ↔ (rules = [] ∨ ∃ r ∈ rules, passes r v)) ∧
      (b = true → e = none) := by
  by_cases hne : rules = []
  · subst hne
    exact ⟨true, none, rfl, by simp, fun _ => rfl⟩
  · rw [Any_call_nonempty v rules hne]
    by_cases hpass : ∃ r ∈ rules, passes r v
    · exact ⟨true, none, Any_loop_of_passing v rules none hret hpass,
        ⟨fun _ => Or.inr hpass, fun _ => rfl⟩, fun _ => rfl⟩
    · have hfail : ∀ r ∈ rules, ∃ e, failsWith r v e := by
        intro r hr
        obtain ⟨⟨b, e⟩, ho⟩ := hret r hr
        cases b with
        | true => exact absurd ⟨r, hr, e, ho⟩ hpass
        | false => exact ⟨e, ho⟩
      obtain ⟨e, he⟩ := Any_loop_of_failing v rules none hfail
      refine ⟨false, some e, he, Iff.intro (fun h => Bool.noConfusion h) (fun h => ?_),
        fun h => Bool.noConfusion h⟩
      rcases h with h | h
      · exact absurd h hne
      · exact absurd h hpass

theorem Any_passes_iff_witness :
    call (Any [MinLen 10, some (fun _ => some (true, some ⟨"note", "passed"⟩))]) "x"
      = some (true, none) := by
  obtain ⟨b, e, hcall, hiff, hnil⟩ :=
    Any_passes_iff [MinLen 10, some (fun _ => some (true, some ⟨"note", "passed"⟩))] "x"
      (by
        intro r hr
        simp only [List.mem_cons, List.mem_singleton, List.not_mem_nil, or_false] at hr
        rcases hr with hr | hr <;> subst hr
        · exact ⟨(false, some ⟨"min_length", "minimum length not satisfied"⟩), by decide⟩
        · exact ⟨_, rfl⟩)
  have hb : b = true :=
    hiff.mpr (Or.inr ⟨some (fun _ => some (true, some ⟨"note", "passed"⟩)),
      by simp, ⟨_, rfl⟩⟩)
  rw [hcall, hb, hnil hb]

/-- C3 as stated fails: in `Any(MinLen(3), r2)` on "ab", where `r2` returns `(false, nil)`,
both rules fail, the last rule returns no error, and `Any` returns the error of the first
rule. -/
theorem Any_last_rule_error_counterexample :
    failsWith (MinLen 3) "ab" (some ⟨"min_length", "minimum length not satisfied"⟩) ∧
    failsWith (some (fun _ => some (false, none)) : Rule String) "ab" none ∧
    call (Any [MinLen 3, some (fun _ => some (false, none))]) "ab"
      = some (false, some ⟨"min_length", "minimum length not satisfied"⟩) ∧
    call (Any [MinLen 3, some (fun _ => some (false, none))]) "ab" ≠ some (false, none) := by
  refine ⟨by unfold failsWith; decide, rfl, by decide, by decide⟩

/-- C3, amended: on a non-empty list of rules that all fail on `v`, `Any(rules)(v)` fails
with a non-nil error, and when the last rule of the list returned a non-nil error, that
error is the one `Any` returns. -/
theorem Any_returns_last_error {T : Type} (rules : List (Rule T)) (v : T) (hne : rules ≠ [])
    (hfail : ∀ r ∈ rules, ∃ e, failsWith r v e) :
    (∃ e, call (Any rules) v = some (false, some e)) ∧
    (∀ r e, rules.getLast? = some r → failsWith r v (some e) →
      call (Any rules) v = some (false, some e)) := by
  rw [Any_call_nonempty v rules hne]
  refine ⟨Any_loop_of_failing v rules none hfail, ?_⟩
  intro r e hlast hr
  obtain ⟨pre, hpre⟩ : ∃ pre, rules = pre ++ [r] := by
    rcases List.eq_nil_or_concat rules with h | ⟨pre, x, h⟩
    · exact absurd h hne
    · subst h
      rw [List.concat_eq_append, List.getLast?_append] at hlast
      simp only [List.getLast?_singleton, Option.or, Option.some.injEq] at hlast
      subst hlast
      exact ⟨pre, List.concat_eq_append _ _⟩
  subst hpre
  rw [Any_loop_keeps_later v pre [] r e none
    (fun p hp => hfail p (List.mem_append_left _ hp)) hr]
  rfl

theorem Any_returns_last_error_witness :
    call (Any [MinLen 3, OneOf ["x"]]) "ab" = some (false, some ⟨"one_of", "value not allowed"⟩) :=
  (Any_returns_last_error [MinLen 3, OneOf ["x"]] "ab" (by simp)
    (by
      intro r hr
      simp only [List.mem_cons, List.mem_singleton, List.not_mem_nil, or_false] at hr
      rcases hr with hr | hr <;> subst hr
      · exact ⟨some ⟨"min_length", "minimum length not satisfied"⟩, by unfold failsWith; decide⟩
      · exact ⟨some ⟨"one_of", "value not allowed"⟩, by unfold failsWith; decide⟩)).2
    (OneOf ["x"]) ⟨"one_of", "value not allowed"⟩ rfl (by unfold failsWith; decide)

theorem exists_last_attached {T : Type} (rules : List (Rule T)) (v : T)
    (hfail : ∀ r ∈ rules, ∃ e, failsWith r v e) (hsome : ¬ ∀ r ∈ rules, failsWith r v none) :
    ∃ pre r post e, rules = pre ++ r :: post ∧ failsWith r v (some e) ∧
      ∀ q ∈ post, failsWith q v none := by
  induction rules with
  | nil => exact absurd (fun r hr => by cases hr) hsome
  | cons x xs ih =>
    by_cases hxs : ∀ r ∈ xs, failsWith r v none
    · obtain ⟨e, he⟩ := hfail x (List.mem_cons_self _ _)
      cases e with
      | none =>
        refine absurd ?_ hsome
        intro r hr
        rcases List.mem_cons.mp hr with h | h
        · subst h; exact he
        · exact hxs r h
      | some err => exact ⟨[], x, xs, err, rfl, he, hxs⟩
    · obtain ⟨pre, r, post, e, hsplit, hr, hpost⟩ :=
        ih (fun q hq => hfail q (List.mem_cons_of_mem _ hq)) hxs
      exact ⟨x :: pre, r, post, e, by rw [hsplit]; rfl, hr, hpost⟩

/-- C4: on a non-empty list of rules that all fail on `v`: when every rule returned a nil
error, `Any(rules)(v)` is `(false, {"any", "none of the rules matched"})`; otherwise there is
a last rule of the list that returned a non-nil error (every rule after it returned nil),
and `Any` returns `false` with the error of that rule; in both cases the error is non-nil. -/
theorem Any_all_fail_error {T : Type} (rules : List (Rule T)) (v : T) (hne : rules ≠ [])
    (hfail : ∀ r ∈ rules, ∃ e, failsWith r v e) :
    ((∀ r ∈ rules, failsWith r v none) →
      call (Any rules) v = some (false, some ⟨"any", "none of the rules matched"⟩)) ∧
    (∀ pre r post e, rules = pre ++ r :: post → failsWith r v (some e) →
      (∀ q ∈ post, failsWith q v none) → call (Any rules) v = some (false, some e)) ∧
    ((¬ ∀ r ∈ rules, failsWith r v none) →
      ∃ pre r post e, rules = pre ++ r :: post ∧ failsWith r v (some e) ∧
        (∀ q ∈ post, failsWith q v none) ∧ call (Any rules) v = some (false, some e)) ∧
    (∃ e, call (Any rules) v = some (false, some e)) := by
  rw [Any_call_nonempty v rules hne]
  have hlater : ∀ pre r post e, rules = pre ++ r :: post → failsWith r v (some e) →
      (∀ q ∈ post, failsWith q v none) → Any.loop v rules none = some (false, some e) := by
    intro pre r post e hsplit hr hpost
    subst hsplit
    rw [Any_loop_keeps_later v pre post r e none
      (fun p hp => hfail p (List.mem_append_left _ hp)) hr]
    have h := Any_loop_skips_silent v post [] (some e) hpost
    rw [List.append_nil] at h
    rw [h]
    rfl
  refine ⟨?_, hlater, ?_, Any_loop_of_failing v rules none hfail⟩
  · intro hnil
    have h := Any_loop_skips_silent v rules [] none hnil
    rw [List.append_nil] at h
    rw [h]
    rfl
  · intro hsome
    obtain ⟨pre, r, post, e, hsplit, hr, hpost⟩ := exists_last_attached rules v hfail hsome
    exact ⟨pre, r, post, e, hsplit, hr, hpost, hlater pre r post e hsplit hr hpost⟩

theorem Any_all_fail_error_witness :
    call (Any [(some (fun _ => some (false, none)) : Rule String),
        some (fun _ => some (false, none))]) "ab"
      = some (false, some ⟨"any", "none of the rules matched"⟩) ∧
    call (Any [MinLen 3, some (fun _ => some (false, none))]) "ab"
      = some (false, some ⟨"min_length", "minimum length not satisfied"⟩) :=
  ⟨(Any_all_fail_error [(some (fun _ => some (false, none)) : Rule String),
        some (fun _ => some (false, none))] "ab" (by simp)
      (by
        intro r hr
        simp only [List.mem_cons, List.mem_singleton, List.not_mem_nil, or_false, or_self] at hr
        subst hr
        exact ⟨none, rfl⟩)).1
      (by
        intro r hr
        simp only [List.mem_cons, List.mem_singleton, List.not_mem_nil, or_false, or_self] at hr
        subst hr
        rfl),
   (Any_all_fail_error [MinLen 3, some (fun _ => some (false, none))] "ab" (by simp)
      (by
        intro r hr
        simp only [List.mem_cons, List.mem_singleton, List.not_mem_nil, or_false] at hr
        rcases hr with hr | hr <;> subst hr
        · exact ⟨some ⟨"min_length", "minimum length not satisfied"⟩, by unfold failsWith; decide⟩
        · exact ⟨none, rfl⟩)).2.1
      [] (MinLen 3) [some (fun _ => some (false, none))] _ rfl (by unfold failsWith; decide)
      (by
        intro q hq
        simp only [List.mem_singleton] at hq
        subst hq
        rfl)⟩

/-- C5: on the zero value of the type, `Optional(r)` returns `(true, nil)` whatever `r` is
(a nil function or a rule that would panic is not called); on any other value it returns
exactly what the call `r(v)` yields. -/
theorem Optional_zero_or_delegate {T : Type} [DecidableEq T] [ZeroValue T] (r : Rule T) (v : T) :
    (v = ZeroValue.zero → call (Optional r) v = some (true, none)) ∧
    (v ≠ ZeroValue.zero → call (Optional r) v = call r v) := by
  constructor
  · intro hz
    show (if v = ZeroValue.zero then some ok else call r v) = _
    rw [if_pos hz]
    rfl
  · intro hnz
    show (if v = ZeroValue.zero then some ok else call r v) = _
    rw [if_neg hnz]

theorem Optional_zero_or_delegate_witness :
    call (Optional (none : Rule String)) "" = some (true, none) ∧
    call (Optional (some (fun _ => none) : Rule Int)) 0 = some (true, none) ∧
    call (Optional (MinLen 3)) "ab" = call (MinLen 3) "ab" :=
  ⟨(Optional_zero_or_delegate (none : Rule String) "").1 rfl,
   (Optional_zero_or_delegate (some (fun _ => none) : Rule Int) 0).1 rfl,
   (Optional_zero_or_delegate (MinLen 3) "ab").2 (by decide)⟩

/-! ## Properties of a field binding -/

theorem visit_eq_append {F : Type} (name : String) (val : F) (slot : Rule F) (errs : Errors)
    (hret : slotReturns val slot) :
    fieldRule.visit name val slot errs
      = some ⟨errs.list ++ fieldRule.appended name val slot⟩ := by
  cases slot with
  | none => rfl
  | some g =>
    obtain ⟨⟨b, e⟩, ho⟩ := hret g rfl
    cases b with
    | true => simp [fieldRule.visit, fieldRule.appended, ho]
    | false =>
      cases e with
      | none => simp [fieldRule.visit, fieldRule.appended, ho, Errors.Add]
      | some err => simp [fieldRule.visit, fieldRule.appended, ho, Errors.Add]

theorem appended_of_fails {F : Type} (name : String) (val : F) (slot : Rule F)
    (hfail : slotFails val slot = true) : ∃ x, fieldRule.appended name val slot = [x] := by
  cases slot with
  | none => exact ⟨_, rfl⟩
  | some g =>
    cases ho : g val with
    | none => simp [slotFails, ho] at hfail
    | some o =>
      obtain ⟨b, e⟩ := o
      cases b with
      | true => simp [slotFails, ho] at hfail
      | false =>
        cases e with
        | none =>
          exact ⟨⟨name, "invalid", "validation failed"⟩,
            by simp [fieldRule.visit, fieldRule.appended, ho, Errors.Add]⟩
        | some err =>
          exact ⟨⟨name, if err.Code = "" then "invalid" else err.Code,
              if err.Message = "" then "validation failed" else err.Message⟩,
            by simp [fieldRule.visit, fieldRule.appended, ho, Errors.Add]⟩

theorem appended_of_not_fails {F : Type} (name : String) (val : F) (slot : Rule F)
    (hpass : slotFails val slot = false) : fieldRule.appended name val slot = [] := by
  cases slot with
  | none => simp [slotFails] at hpass
  | some g =>
    cases ho : g val with
    | none => simp [fieldRule.visit, fieldRule.appended, ho]
    | some o =>
      obtain ⟨b, e⟩ := o
      cases b with
      | true => simp [fieldRule.visit, fieldRule.appended, ho]
      | false => simp [slotFails, ho] at hpass

theorem appended_length {F : Type} (name : String) (val : F) (slot : Rule F) :
    (fieldRule.appended name val slot).length = if slotFails val slot = true then 1 else 0 := by
  by_cases h : slotFails val slot = true
  · obtain ⟨x, hx⟩ := appended_of_fails name val slot h
    rw [hx, if_pos h]
    rfl
  · rw [appended_of_not_fails name val slot (by simpa using h), if_neg h]
    rfl

theorem appended_flatten_length {F : Type} (name : String) (val : F) (rules : List (Rule F)) :
    (rules.map (fieldRule.appended name val)).flatten.length = rules.countP (slotFails val) := by
  induction rules with
  | nil => rfl
  | cons slot rules ih =>
    rw [List.map_cons, List.flatten_cons, List.length_append, ih, appended_length,
      List.countP_cons]
    omega

theorem appended_flatten_eq_nil {F : Type} (name : String) (val : F) (rules : List (Rule F)) :
    (rules.map (fieldRule.appended name val)).flatten = [] ↔
      ∀ slot ∈ rules, slotFails val slot = false := by
  rw [← List.length_eq_zero, appended_flatten_length, List.countP_eq_zero]
  simp

theorem loop_eq_append {F : Type} (name : String) (val : F) (rules : List (Rule F))
    (errs : Errors) (hret : ∀ slot ∈ rules, slotReturns val slot) :
    fieldRule.loop name val rules errs
      = some ⟨errs.list ++ (rules.map (fieldRule.appended name val)).flatten⟩ := by
  induction rules generalizing errs with
  | nil => simp [fieldRule.loop]
  | cons slot rules ih =>
    rw [fieldRule.loop, visit_eq_append name val slot errs (hret slot (List.mem_cons_self _ _)),
      Option.some_bind, ih _ (fun q hq => hret q (List.mem_cons_of_mem _ hq))]
    simp

/-- C6: when no slot of the chain panics on the extracted value, `validate` returns the
report it was given followed by what the visit of each slot appends, slot after slot in
registration order, all computed on the one extracted value `f.getter obj`; the visit of a
slot that is unset or whose rule returns `false` appends exactly one violation, that of a
rule that returns `true` appends none, whatever error comes with the `true`; so the number
of violations appended is the number of unset-or-failing slots, which is the length of the
chain when every slot fails. -/
theorem validate_visits_every_slot {T F : Type} (f : fieldRule T F) (obj : T) (errs : Errors)
    (hret : ∀ slot ∈ f.rules, slotReturns (f.getter obj) slot) :
    f.validate obj errs
      = some ⟨errs.list ++ (f.rules.map (fieldRule.appended f.name (f.getter obj))).flatten⟩ ∧
    (∀ slot, slotFails (f.getter obj) slot = true →
      ∃ x, fieldRule.appended f.name (f.getter obj) slot = [x]) ∧
    (∀ slot, slotFails (f.getter obj) slot = false →
      fieldRule.appended f.name (f.getter obj) slot = []) ∧
    (∀ g e, g (f.getter obj) = some (true, e) →
      fieldRule.appended f.name (f.getter obj) (some g) = []) ∧
    (f.rules.map (fieldRule.appended f.name (f.getter obj))).flatten.length
      = f.rules.countP (slotFails (f.getter obj)) ∧
    ((∀ slot ∈ f.rules, slotFails (f.getter obj) slot = true) →
      (f.rules.map (fieldRule.appended f.name (f.getter obj))).flatten.length
        = f.rules.length) := by
  refine ⟨loop_eq_append f.name (f.getter obj) f.rules errs hret,
    fun slot h => appended_of_fails _ _ slot h,
    fun slot h => appended_of_not_fails _ _ slot h, ?_,
    appended_flatten_length _ _ _, ?_⟩
  · intro g e hg
    exact appended_of_not_fails _ _ _ (by simp [slotFails, hg])
  · intro hall
    rw [appended_flatten_length, List.countP_eq_length]
    exact hall

theorem slotReturns_nil {F : Type} (val : F) : slotReturns val (none : Rule F) := by
  intro g hg
  cases hg

theorem slotReturns_of_call {F : Type} (val : F) (slot : Rule F) (o : Outcome)
    (ho : call slot val = some o) : slotReturns val slot := by
  intro g hg
  subst hg
  exact ⟨o, ho⟩

theorem validate_visits_every_slot_witness :
    fieldRule.validate
        (⟨"code", fun (s : String) => s,
          [MinLen 3, none, some (fun _ => some (true, some ⟨"note", "kept"⟩)), OneOf ["x"]]⟩ :
          fieldRule String String)
        "ab" ⟨[⟨"age", "min", "value below minimum"⟩]⟩
      = some ⟨[⟨"age", "min", "value below minimum"⟩,
          ⟨"code", "min_length", "minimum length not satisfied"⟩,
          ⟨"code", "invalid_rule", "rule is not configured"⟩,
          ⟨"code", "one_of", "value not allowed"⟩]⟩ :=
  (validate_visits_every_slot
    (⟨"code", fun (s : String) => s,
      [MinLen 3, none, some (fun _ => some (true, some ⟨"note", "kept"⟩)), OneOf ["x"]]⟩ :
      fieldRule String String)
    "ab" ⟨[⟨"age", "min", "value below minimum"⟩]⟩
    (by
      intro slot hslot
      simp only [List.mem_cons, List.mem_singleton, List.not_mem_nil, or_false] at hslot
      rcases hslot with h | h | h | h <;> subst h
      · exact slotReturns_of_call _ _
          (false, some ⟨"min_length", "minimum length not satisfied"⟩) (by decide)
      · exact slotReturns_nil _
      · exact slotReturns_of_call _ _ (true, some ⟨"note", "kept"⟩) rfl
      · exact slotReturns_of_call _ _ (false, some ⟨"one_of", "value not allowed"⟩)
          (by decide))).1.trans (by decide)

/-- C7: when a configured rule of the chain returns `false`, the visit appends one violation
with the name of the field and the code and message of the rule's error, each replaced by
its default when it is missing: a nil error gives "invalid" and "validation failed"; a
non-nil error gives its code, or "invalid" when the code is empty, and its message, or
"validation failed" when the message is empty. -/
theorem visit_failure_defaults {F : Type} (name : String) (val : F) (g : F → Option Outcome)
    (ruleErr : Option RuleError) (errs : Errors) (hfail : g val = some (false, ruleErr)) :
    (ruleErr = none →
      fieldRule.visit name val (some g) errs
        = some ⟨errs.list ++ [⟨name, "invalid", "validation failed"⟩]⟩) ∧
    (∀ e, ruleErr = some e →
      fieldRule.visit name val (some g) errs
        = some ⟨errs.list ++ [⟨name, if e.Code = "" then "invalid" else e.Code,
            if e.Message = "" then "validation failed" else e.Message⟩]⟩) ∧
    (∀ e, ruleErr = some e → e.Code = "" → e.Message ≠ "" →
      fieldRule.visit name val (some g) errs
        = some ⟨errs.list ++ [⟨name, "invalid", e.Message⟩]⟩) ∧
    (∀ e, ruleErr = some e → e.Message = "" → e.Code ≠ "" →
      fieldRule.visit name val (some g) errs
        = some ⟨errs.list ++ [⟨name, e.Code, "validation failed"⟩]⟩) ∧
    (∀ e, ruleErr = some e → e.Code ≠ "" → e.Message ≠ "" →
      fieldRule.visit name val (some g) errs
        = some ⟨errs.list ++ [⟨name, e.Code, e.Message⟩]⟩) := by
  have hgen : ∀ e, ruleErr = some e →
      fieldRule.visit name val (some g) errs
        = some ⟨errs.list ++ [⟨name, if e.Code = "" then "invalid" else e.Code,
            if e.Message = "" then "validation failed" else e.Message⟩]⟩ := by
    intro e he
    subst he
    simp [fieldRule.visit, hfail, Errors.Add]
  refine ⟨?_, hgen, ?_, ?_, ?_⟩
  · intro hnil
    subst hnil
    simp [fieldRule.visit, hfail, Errors.Add]
  · intro e he hc hm
    rw [hgen e he, if_pos hc, if_neg hm]
  · intro e he hm hc
    rw [hgen e he, if_neg hc, if_pos hm]
  · intro e he hc hm
    rw [hgen e he, if_neg hc, if_neg hm]

theorem visit_failure_defaults_witness :
    fieldRule.visit "age" (15 : Int) (some (fun _ => some (false, none))) ⟨[]⟩
      = some ⟨[⟨"age", "invalid", "validation failed"⟩]⟩ ∧
    fieldRule.visit "age" (15 : Int) (some (fun _ => some (false, some ⟨"", "too young"⟩))) ⟨[]⟩
      = some ⟨[⟨"age", "invalid", "too young"⟩]⟩ ∧
    fieldRule.visit "age" (15 : Int) (some (fun _ => some (false, some ⟨"min", ""⟩))) ⟨[]⟩
      = some ⟨[⟨"age", "min", "validation failed"⟩]⟩ ∧
    fieldRule.visit "age" (15 : Int) (some (fun _ => some (false, some ⟨"", ""⟩))) ⟨[]⟩
      = some ⟨[⟨"age", "invalid", "validation failed"⟩]⟩ :=
  ⟨(visit_failure_defaults "age" (15 : Int) (fun _ => some (false, none)) none ⟨[]⟩ rfl).1 rfl,
   (visit_failure_defaults "age" (15 : Int) (fun _ => some (false, some ⟨"", "too young"⟩))
      (some ⟨"", "too young"⟩) ⟨[]⟩ rfl).2.2.1 _ rfl rfl (by decide),
   (visit_failure_defaults "age" (15 : Int) (fun _ => some (false, some ⟨"min", ""⟩))
      (some ⟨"min", ""⟩) ⟨[]⟩ rfl).2.2.2.1 _ rfl rfl (by decide),
   (visit_failure_defaults "age" (15 : Int) (fun _ => some (false, some ⟨"", ""⟩))
      (some ⟨"", ""⟩) ⟨[]⟩ rfl).2.1 _ rfl⟩

/-! ## Interleavings -/

theorem set_same_of_getElem? {α : Type*} (ls : List α) (i : Nat) (a : α) (h : ls[i]? = some a) :
    ls.set i a = ls := by
  induction ls generalizing i with
  | nil => rfl
  | cons b ls ih =>
    cases i with
    | zero =>
      simp only [List.getElem?_cons_zero, Option.some.injEq] at h
      subst h
      rfl
    | succ i =>
      simp only [List.getElem?_cons_succ] at h
      simp only [List.set_cons_succ, ih i h]

theorem Interleaving.cons_nil {α : Type} {ls : List (List α)} {out : List α}
    (h : Interleaving ls out) : Interleaving ([] :: ls) out := by
  induction h with
  | done hall =>
    refine Interleaving.done ?_
    intro l hl
    rcases List.mem_cons.mp hl with h | h
    · exact h
    · exact hall l h
  | @pick ls i x l out hget _ ih =>
    exact @Interleaving.pick α ([] :: ls) (i + 1) x l out
      (by simpa only [List.getElem?_cons_succ] using hget)
      (by simpa only [List.set_cons_succ] using ih)

theorem Interleaving.cons_head {α : Type} (l : List α) {ls : List (List α)} {out : List α}
    (h : Interleaving ls out) : Interleaving (l :: ls) (l ++ out) := by
  induction l with
  | nil => exact h.cons_nil
  | cons x l ih =>
    exact @Interleaving.pick α ((x :: l) :: ls) 0 x l (l ++ out)
      (by simp only [List.getElem?_cons_zero]) (by simpa only [List.set_cons_zero] using ih)

theorem Interleaving.flatten {α : Type} (ls : List (List α)) : Interleaving ls ls.flatten := by
  induction ls with
  | nil => exact Interleaving.done (fun l hl => by cases hl)
  | cons l ls ih => exact ih.cons_head l

theorem flatten_set_perm {α : Type} (ls : List (List α)) (i : Nat) (x : α) (l : List α)
    (hget : ls[i]? = some (x :: l)) : (x :: (ls.set i l).flatten).Perm ls.flatten := by
  induction ls generalizing i with
  | nil => simp at hget
  | cons h ls ih =>
    cases i with
    | zero =>
      simp only [List.getElem?_cons_zero, Option.some.injEq] at hget
      subst hget
      simp only [List.set_cons_zero, List.flatten_cons, List.cons_append]
      exact List.Perm.refl _
    | succ i =>
      simp only [List.getElem?_cons_succ] at hget
      simp only [List.set_cons_succ, List.flatten_cons]
      exact (List.perm_middle.symm).trans (List.Perm.append_left h (ih i hget))

theorem Interleaving.perm {α : Type} {ls : List (List α)} {out : List α}
    (h : Interleaving ls out) : out.Perm ls.flatten := by
  induction h with
  | @done ls hall =>
    have hnil : ls.flatten = [] := by
      rw [List.flatten_eq_nil_iff]
      exact hall
    rw [hnil]
  | @pick ls i x l out hget _ ih =>
    exact (List.Perm.cons x ih).trans (flatten_set_perm ls i x l hget)

theorem Interleaving.sublist {α : Type} {ls : List (List α)} {out : List α}
    (h : Interleaving ls out) (j : Nat) (own : List α) (hj : ls[j]? = some own) :
    own.Sublist out := by
  induction h generalizing own with
  | @done ls hall =>
    rw [hall own (List.getElem?_mem hj)]
  | @pick ls i x l out hget _ ih =>
    by_cases hij : i = j
    · subst hij
      rw [hget] at hj
      cases hj
      have hlt : i < ls.length := (List.getElem?_eq_some.mp hget).1
      exact (ih l (List.getElem?_set_self hlt)).cons₂ x
    · exact (ih own (by rw [List.getElem?_set_ne hij]; exact hj)).cons x

theorem Interleaving.nil_iff {α : Type} (ls : List (List α)) :
    Interleaving ls [] ↔ ∀ l ∈ ls, l = [] := by
  constructor
  · intro h
    cases h with
    | done hall => exact hall
  · exact Interleaving.done

theorem Interleaving.single {α : Type} {l out : List α} (h : Interleaving [l] out) :
    out = l := by
  have hp := h.sublist 0 l rfl
  have hlen : out.length = l.length := by
    have := h.perm.length_eq
    simpa using this
  exact (hp.eq_of_length hlen.symm).symm

/-! ## Properties of the engine -/

theorem wait_eq_append (tasks : List Task) (errs : Errors) (hret : ∀ t ∈ tasks, t.returns) :
    Run.wait tasks errs = some ⟨errs.list ++ (tasks.map Task.pending).flatten⟩ := by
  induction tasks generalizing errs with
  | nil => simp [Run.wait]
  | cons t tasks ih =>
    rw [Run.wait, loop_eq_append t.name t.val t.rest errs (hret t (List.mem_cons_self _ _)),
      Option.some_bind, ih _ (fun q hq => hret q (List.mem_cons_of_mem _ hq))]
    simp [Task.pending]

/-- A scheduling step either leaves the report and the pending violations as they are, or
moves the first pending violation of the picked goroutine to the end of the report. -/
theorem step_effect (r : Run) (i : Nat) (hret : ∀ t ∈ r.tasks, t.returns) :
    ∃ r', r.step i = some r' ∧ (∀ t ∈ r'.tasks, t.returns) ∧
      ((r'.errs = r.errs ∧ r'.tasks.map Task.pending = r.tasks.map Task.pending) ∨
        ∃ x l, r'.errs.list = r.errs.list ++ [x] ∧
          (r.tasks.map Task.pending)[i]? = some (x :: l) ∧
          r'.tasks.map Task.pending = (r.tasks.map Task.pending).set i l) := by
  cases hti : r.tasks[i]? with
  | none => exact ⟨r, by simp [Run.step, hti], hret, Or.inl ⟨rfl, rfl⟩⟩
  | some t =>
    obtain ⟨F, name, val, rest⟩ := t
    cases rest with
    | nil => exact ⟨r, by simp [Run.step, hti], hret, Or.inl ⟨rfl, rfl⟩⟩
    | cons rule rest =>
      have hmem := List.getElem?_mem hti
      have ht : ∀ slot ∈ rule :: rest, slotReturns val slot := hret _ hmem
      have hvisit := visit_eq_append name val rule r.errs (ht rule (List.mem_cons_self _ _))
      have hpend : (r.tasks.map Task.pending)[i]?
          = some (fieldRule.appended name val rule
              ++ Task.pending ⟨F, name, val, rest⟩) := by
        rw [List.getElem?_map, hti]
        rfl
      refine ⟨⟨⟨r.errs.list ++ fieldRule.appended name val rule⟩,
        r.tasks.set i ⟨F, name, val, rest⟩⟩, by simp [Run.step, hti, hvisit], ?_, ?_⟩
      · intro t ht'
        rcases List.mem_or_eq_of_mem_set ht' with h | h
        · exact hret t h
        · subst h
          exact fun slot hslot => ht slot (List.mem_cons_of_mem _ hslot)
      · by_cases hf : slotFails val rule = true
        · obtain ⟨x, hx⟩ := appended_of_fails name val rule hf
          refine Or.inr ⟨x, Task.pending ⟨F, name, val, rest⟩, by rw [hx], ?_, ?_⟩
          · rw [hpend, hx]
            rfl
          · show (r.tasks.set i _).map Task.pending = _
            rw [List.map_set]
        · have hx := appended_of_not_fails name val rule (by simpa using hf)
          refine Or.inl ⟨?_, ?_⟩
          · show (⟨r.errs.list ++ fieldRule.appended name val rule⟩ : Errors) = r.errs
            rw [hx, List.append_nil]
          · show (r.tasks.set i _).map Task.pending = _
            rw [hx, List.nil_append] at hpend
            rw [List.map_set, set_same_of_getElem? _ _ _ hpend]

/-- From any state of a run, a schedule followed by the barrier appends to the report an
interleaving of what the goroutines have still to append. -/
theorem sched_wait_interleaving (schedule : List Nat) (r : Run)
    (hret : ∀ t ∈ r.tasks, t.returns) :
    ∃ r' out, Run.sched schedule r = some r' ∧
      Run.wait r'.tasks r'.errs = some ⟨r.errs.list ++ out⟩ ∧
      Interleaving (r.tasks.map Task.pending) out := by
  induction schedule generalizing r with
  | nil =>
    exact ⟨r, _, rfl, wait_eq_append r.tasks r.errs hret, Interleaving.flatten _⟩
  | cons i schedule ih =>
    obtain ⟨r₁, hstep, hret₁, heff⟩ := step_effect r i hret
    obtain ⟨r', out, hsched, hwait, hinter⟩ := ih r₁ hret₁
    have hrun : Run.sched (i :: schedule) r = some r' := by
      rw [Run.sched, hstep, Option.some_bind, hsched]
    rcases heff with ⟨herrs, htasks⟩ | ⟨x, l, herrs, hget, htasks⟩
    · refine ⟨r', out, hrun, ?_, ?_⟩
      · rw [hwait, herrs]
      · rw [← htasks]
        exact hinter
    · refine ⟨r', x :: out, hrun, ?_, ?_⟩
      · rw [hwait, herrs]
        simp
      · rw [htasks] at hinter
        exact Interleaving.pick hget hinter

theorem alone_eq_pending {T : Type} (obj : T) (sf : schemaField T) (hret : sf.returns obj) :
    sf.validate obj ⟨[]⟩ = some ⟨Task.pending (Task.start obj sf)⟩ ∧
    schemaField.alone obj sf = Task.pending (Task.start obj sf) := by
  have h : sf.validate obj ⟨[]⟩ = some ⟨Task.pending (Task.start obj sf)⟩ := by
    show fieldRule.loop _ _ _ _ = _
    rw [loop_eq_append _ _ _ _ hret]
    rfl
  refine ⟨h, ?_⟩
  unfold schemaField.alone
  rw [h]

/-- Under every schedule `Validate` returns, and the violations of its result are an
interleaving of the violations the field bindings append on their own (nil stands for none). -/
theorem Validate_interleaving {T : Type} (s : Schema T) (obj : T) (schedule : List Nat)
    (hret : ∀ sf ∈ s.fields, sf.returns obj) :
    ∃ out, Interleaving (s.fields.map (schemaField.alone obj)) out ∧
      s.Validate obj schedule = some (if out = [] then none else some ⟨out⟩) := by
  have hmap : (s.fields.map (Task.start obj)).map Task.pending
      = s.fields.map (schemaField.alone obj) := by
    rw [List.map_map]
    apply List.map_congr_left
    intro sf hsf
    exact (alone_eq_pending obj sf (hret sf hsf)).2.symm
  have htasks : ∀ t ∈ s.fields.map (Task.start obj), t.returns := by
    intro t ht
    obtain ⟨sf, hsf, rfl⟩ := List.mem_map.mp ht
    exact hret sf hsf
  obtain ⟨r', out, hsched, hwait, hinter⟩ :=
    sched_wait_interleaving schedule ⟨⟨[]⟩, s.fields.map (Task.start obj)⟩ htasks
  rw [hmap] at hinter
  refine ⟨out, hinter, ?_⟩
  simp only [List.nil_append] at hwait
  unfold Schema.Validate
  rw [hsched]
  simp only [hwait]
  cases out with
  | nil => simp [Errors.Has]
  | cons x out => simp [Errors.Has]

theorem sched_append (schedule₁ schedule₂ : List Nat) (r r₁ : Run)
    (h : Run.sched schedule₁ r = some r₁) :
    Run.sched (schedule₁ ++ schedule₂) r = Run.sched schedule₂ r₁ := by
  induction schedule₁ generalizing r with
  | nil =>
    simp only [Run.sched, Option.some.injEq] at h
    subst h
    rfl
  | cons i schedule₁ ih =>
    rw [Run.sched] at h
    cases hstep : r.step i with
    | none => rw [hstep] at h; cases h
    | some r' =>
      rw [hstep, Option.some_bind] at h
      rw [List.cons_append, Run.sched, hstep, Option.some_bind]
      exact ih r' h

theorem advance_to_append (i : Nat) (x : Error) (l : List Error) (n : Nat) :
    ∀ (r : Run) (t : Task), (∀ t ∈ r.tasks, t.returns) → r.tasks[i]? = some t →
      t.rest.length = n → t.pending = x :: l →
      ∃ schedule r₁, Run.sched schedule r = some r₁ ∧ (∀ t ∈ r₁.tasks, t.returns) ∧
        r₁.errs.list = r.errs.list ++ [x] ∧
        r₁.tasks.map Task.pending = (r.tasks.map Task.pending).set i l := by
  induction n with
  | zero =>
    intro r t _ _ hlen hpend
    obtain ⟨F, name, val, rest⟩ := t
    have hrest : rest = [] := List.length_eq_zero.mp hlen
    subst hrest
    cases hpend
  | succ n ih =>
    intro r t hret hti hlen hpend
    obtain ⟨F, name, val, rest⟩ := t
    cases rest with
    | nil => cases hlen
    | cons rule rest =>
      have ht : ∀ slot ∈ rule :: rest, slotReturns val slot := hret _ (List.getElem?_mem hti)
      have hvisit := visit_eq_append name val rule r.errs (ht rule (List.mem_cons_self _ _))
      have hstep : r.step i = some ⟨⟨r.errs.list ++ fieldRule.appended name val rule⟩,
          r.tasks.set i ⟨F, name, val, rest⟩⟩ := by
        simp [Run.step, hti, hvisit]
      have hret' : ∀ t ∈ r.tasks.set i ⟨F, name, val, rest⟩, t.returns := by
        intro t ht'
        rcases List.mem_or_eq_of_mem_set ht' with h | h
        · exact hret t h
        · subst h
          exact fun slot hslot => ht slot (List.mem_cons_of_mem _ hslot)
      have hsplit : fieldRule.appended name val rule ++ Task.pending ⟨F, name, val, rest⟩
          = x :: l := hpend
      by_cases hf : slotFails val rule = true
      · obtain ⟨x', hx'⟩ := appended_of_fails name val rule hf
        rw [hx'] at hsplit hstep
        simp only [List.singleton_append, List.cons.injEq] at hsplit
        obtain ⟨hx, hl⟩ := hsplit
        subst hx
        refine ⟨[i], _, by rw [Run.sched, hstep]; rfl, hret', rfl, ?_⟩
        show (r.tasks.set i _).map Task.pending = _
        rw [List.map_set, hl]
      · have hnil := appended_of_not_fails name val rule (by simpa using hf)
        rw [hnil] at hsplit hstep
        rw [List.nil_append] at hsplit
        rw [List.append_nil] at hstep
        have hlt : i < r.tasks.length := (List.getElem?_eq_some.mp hti).1
        obtain ⟨schedule, r₁, hsched, hret₁, herrs, htasks⟩ :=
          ih ⟨⟨r.errs.list⟩, r.tasks.set i ⟨F, name, val, rest⟩⟩ ⟨F, name, val, rest⟩ hret'
            (List.getElem?_set_self hlt) (by simpa using hlen) hsplit
        refine ⟨i :: schedule, r₁, by rw [Run.sched, hstep]; exact hsched, hret₁, herrs, ?_⟩
        rw [htasks]
        show ((r.tasks.set i _).map Task.pending).set i l = _
        rw [List.map_set, List.set_set]

theorem schedule_of_interleaving {ls : List (List Error)} {out : List Error}
    (h : Interleaving ls out) :
    ∀ r : Run, (∀ t ∈ r.tasks, t.returns) → r.tasks.map Task.pending = ls →
      ∃ schedule r', Run.sched schedule r = some r' ∧
        Run.wait r'.tasks r'.errs = some ⟨r.errs.list ++ out⟩ := by
  induction h with
  | @done ls hall =>
    intro r hret hls
    refine ⟨[], r, rfl, ?_⟩
    rw [wait_eq_append r.tasks r.errs hret, hls, List.flatten_eq_nil_iff.mpr hall]
  | @pick ls i x l out hget _ ih =>
    intro r hret hls
    subst hls
    rw [List.getElem?_map] at hget
    cases hti : r.tasks[i]? with
    | none => rw [hti] at hget; cases hget
    | some t =>
      rw [hti] at hget
      simp only [Option.map_some', Option.some.injEq] at hget
      obtain ⟨schedule₁, r₁, hsched₁, hret₁, herrs₁, htasks₁⟩ :=
        advance_to_append i x l t.rest.length r t hret hti rfl hget
      obtain ⟨schedule₂, r', hsched₂, hwait⟩ := ih r₁ hret₁ htasks₁
      refine ⟨schedule₁ ++ schedule₂, r', ?_, ?_⟩
      · rw [sched_append schedule₁ schedule₂ r r₁ hsched₁]
        exact hsched₂
      · rw [hwait, herrs₁]
        simp

/-- Every interleaving of the violations of the field bindings is the result of `Validate`
under some schedule: the schedules reach every order of the appends. -/
theorem Validate_every_interleaving {T : Type} (s : Schema T) (obj : T)
    (hret : ∀ sf ∈ s.fields, sf.returns obj) (out : List Error)
    (h : Interleaving (s.fields.map (schemaField.alone obj)) out) :
    ∃ schedule, s.Validate obj schedule = some (if out = [] then none else some ⟨out⟩) := by
  have hmap : (s.fields.map (Task.start obj)).map Task.pending
      = s.fields.map (schemaField.alone obj) := by
    rw [List.map_map]
    apply List.map_congr_left
    intro sf hsf
    exact (alone_eq_pending obj sf (hret sf hsf)).2.symm
  have htasks : ∀ t ∈ s.fields.map (Task.start obj), t.returns := by
    intro t ht
    obtain ⟨sf, hsf, rfl⟩ := List.mem_map.mp ht
    exact hret sf hsf
  obtain ⟨schedule, r', hsched, hwait⟩ :=
    schedule_of_interleaving h ⟨⟨[]⟩, s.fields.map (Task.start obj)⟩ htasks hmap
  refine ⟨schedule, ?_⟩
  simp only [List.nil_append] at hwait
  unfold Schema.Validate
  rw [hsched]
  simp only [hwait]
  cases out with
  | nil => simp [Errors.Has]
  | cons x out => simp [Errors.Has]

theorem exampleSchema_returns (obj : String × Int) :
    ∀ sf ∈ exampleSchema.fields, sf.returns obj := by
  intro sf hsf
  simp only [exampleSchema, List.mem_cons, List.mem_singleton, List.not_mem_nil, or_false] at hsf
  rcases hsf with h | h <;> subst h
  · intro slot hslot
    simp only [List.mem_cons, List.mem_singleton, List.not_mem_nil, or_false] at hslot
    rcases hslot with h | h <;> subst h
    · intro g hg
      cases hg
      by_cases hlt : ((obj.1.length : Int) < 3)
      · exact ⟨_, if_pos hlt⟩
      · exact ⟨_, if_neg hlt⟩
    · intro g hg
      cases hg
      by_cases hin : obj.1 ∈ ["abc", "x"]
      · exact ⟨_, if_pos hin⟩
      · exact ⟨_, if_neg hin⟩
  · intro slot hslot
    simp only [List.mem_singleton] at hslot
    subst hslot
    intro g hg
    cases hg
    by_cases hlt : obj.2 < 18
    · exact ⟨_, if_pos hlt⟩
    · exact ⟨_, if_neg hlt⟩

/-- C8: an unset slot of a chain is reported, not called: its visit appends exactly the one
violation (field name, "invalid_rule", "rule is not configured"), whatever the value, and
the loop goes on with the slots after it; and for every record and every schedule,
`Validate` on a schema whose only field has the chain of one unset slot returns a non-nil
report that holds exactly that violation. -/
theorem unset_slot_reported {F : Type} (name : String) (val : F) (rest : List (Rule F))
    (errs : Errors) :
    fieldRule.visit name val none errs
      = some ⟨errs.list ++ [⟨name, "invalid_rule", "rule is not configured"⟩]⟩ ∧
    fieldRule.loop name val (none :: rest) errs
      = fieldRule.loop name val rest
          ⟨errs.list ++ [⟨name, "invalid_rule", "rule is not configured"⟩]⟩ ∧
    (∀ (T : Type) (getter : T → F) (obj : T) (schedule : List Nat),
      Schema.Validate ⟨[⟨F, ⟨name, getter, [none]⟩⟩]⟩ obj schedule
        = some (some ⟨[⟨name, "invalid_rule", "rule is not configured"⟩]⟩)) := by
  refine ⟨rfl, rfl, ?_⟩
  intro T getter obj schedule
  obtain ⟨out, hinter, hval⟩ :=
    Validate_interleaving ⟨[⟨F, ⟨name, getter, [none]⟩⟩]⟩ obj schedule
      (by
        intro sf hsf
        simp only [List.mem_singleton] at hsf
        subst hsf
        intro slot hslot
        simp only [List.mem_singleton] at hslot
        subst hslot
        exact slotReturns_nil _)
  have hout : out = [⟨name, "invalid_rule", "rule is not configured"⟩] := hinter.single
  rw [hval, hout]
  simp

/-- C9: when no slot of the schema panics on the record, `Validate` returns under every
schedule; its result is nil if and only if no slot of the chain of any field binding is
unset or fails on the record; a report it returns is never empty (`Has()` is true and
`All()` has at least one violation); and a schema with no fields yields nil. -/
theorem Validate_nil_iff {T : Type} (s : Schema T) (obj : T) (schedule : List Nat)
    (hret : ∀ sf ∈ s.fields, sf.returns obj) :
    ∃ res, s.Validate obj schedule = some res ∧
      (res = none ↔
        ∀ sf ∈ s.fields, ∀ slot ∈ sf.field.rules,
          slotFails (sf.field.getter obj) slot = false) ∧
      (∀ errs, res = some errs → errs.Has = true ∧ 1 ≤ errs.All.length) ∧
      (s.fields = [] → res = none) := by
  obtain ⟨out, hinter, hval⟩ := Validate_interleaving s obj schedule hret
  have hnil : out = [] ↔
      ∀ sf ∈ s.fields, ∀ slot ∈ sf.field.rules,
        slotFails (sf.field.getter obj) slot = false := by
    constructor
    · intro hout sf hsf
      rw [hout, Interleaving.nil_iff] at hinter
      have h := hinter _ (List.mem_map_of_mem _ hsf)
      rw [(alone_eq_pending obj sf (hret sf hsf)).2] at h
      exact (appended_flatten_eq_nil _ _ _).mp h
    · intro hall
      have hflat : (s.fields.map (schemaField.alone obj)).flatten = [] := by
        rw [List.flatten_eq_nil_iff]
        intro l hl
        obtain ⟨sf, hsf, rfl⟩ := List.mem_map.mp hl
        rw [(alone_eq_pending obj sf (hret sf hsf)).2]
        exact (appended_flatten_eq_nil _ _ _).mpr (hall sf hsf)
      have hp := hinter.perm
      rw [hflat] at hp
      exact List.Perm.eq_nil hp
  refine ⟨_, hval, ?_, ?_, ?_⟩
  · rw [← hnil]
    by_cases h : out = []
    · simp [h]
    · simp [h]
  · intro errs herrs
    by_cases h : out = []
    · simp [h] at herrs
    · simp only [h, if_false, Option.some.injEq] at herrs
      subst herrs
      have hpos : 0 < out.length := List.length_pos.mpr h
      exact ⟨by simp [Errors.Has, hpos], hpos⟩
  · intro hfields
    have hout : out = [] := hnil.mpr (by rw [hfields]; intro sf hsf; cases hsf)
    simp [hout]

theorem Validate_nil_iff_witness :
    exampleSchema.Validate ("abc", 30) [1, 0, 0] = some none ∧
    ∃ errs, exampleSchema.Validate ("ab", 30) [1, 0, 0] = some (some errs) ∧
      errs.Has = true := by
  obtain ⟨res, hval, hiff, _, _⟩ :=
    Validate_nil_iff exampleSchema ("abc", 30) [1, 0, 0] (exampleSchema_returns _)
  obtain ⟨res', hval', _, hhas, _⟩ :=
    Validate_nil_iff exampleSchema ("ab", 30) [1, 0, 0] (exampleSchema_returns _)
  have hres : res = none := hiff.mpr (by decide)
  refine ⟨by rw [hval, hres], ?_⟩
  cases res' with
  | none => exact absurd hval' (by decide)
  | some errs => exact ⟨errs, hval', (hhas errs rfl).1⟩

theorem violations_ite (out : List Error) :
    violations (if out = [] then none else some ⟨out⟩) = out := by
  by_cases h : out = []
  · simp [h, violations]
  · simp [h, violations, Errors.All]

/-- C10: when no slot of the schema panics on the record, `Validate` returns under every
schedule of the goroutines of its fields, and for any two schedules the violations of the
two results are permutations of one another: each is a permutation of the violations the
field bindings append on their own, taken together, and each is an interleaving of them, so
the violations of any one binding appear in it in the order of the rules of that binding. -/
theorem Validate_schedule_independent {T : Type} (s : Schema T) (obj : T)
    (schedule₁ schedule₂ : List Nat) (hret : ∀ sf ∈ s.fields, sf.returns obj) :
    ∃ res₁ res₂, s.Validate obj schedule₁ = some res₁ ∧ s.Validate obj schedule₂ = some res₂ ∧
      (violations res₁).Perm (violations res₂) ∧
      (violations res₁).Perm (s.fields.map (schemaField.alone obj)).flatten ∧
      (violations res₂).Perm (s.fields.map (schemaField.alone obj)).flatten ∧
      Interleaving (s.fields.map (schemaField.alone obj)) (violations res₁) ∧
      Interleaving (s.fields.map (schemaField.alone obj)) (violations res₂) ∧
      (∀ sf ∈ s.fields, sf.validate obj ⟨[]⟩ = some ⟨schemaField.alone obj sf⟩) ∧
      (∀ (i : Nat) (own : List Error), (s.fields.map (schemaField.alone obj))[i]? = some own →
        own.Sublist (violations res₁) ∧ own.Sublist (violations res₂)) := by
  obtain ⟨out₁, hinter₁, hval₁⟩ := Validate_interleaving s obj schedule₁ hret
  obtain ⟨out₂, hinter₂, hval₂⟩ := Validate_interleaving s obj schedule₂ hret
  refine ⟨_, _, hval₁, hval₂, ?_⟩
  rw [violations_ite, violations_ite]
  refine ⟨hinter₁.perm.trans hinter₂.perm.symm, hinter₁.perm, hinter₂.perm, hinter₁, hinter₂,
    ?_, ?_⟩
  · intro sf hsf
    have h := alone_eq_pending obj sf (hret sf hsf)
    rw [h.2]
    exact h.1
  · intro i own hown
    exact ⟨hinter₁.sublist i own hown, hinter₂.sublist i own hown⟩

theorem Validate_schedule_independent_witness :
    exampleSchema.Validate ("ab", 15) [0, 0, 1]
      = some (some ⟨[⟨"code", "min_length", "minimum length not satisfied"⟩,
          ⟨"code", "one_of", "value not allowed"⟩, ⟨"age", "min", "value below minimum"⟩]⟩) ∧
    exampleSchema.Validate ("ab", 15) [0, 1]
      = some (some ⟨[⟨"code", "min_length", "minimum length not satisfied"⟩,
          ⟨"age", "min", "value below minimum"⟩, ⟨"code", "one_of", "value not allowed"⟩]⟩) ∧
    List.Perm
      [(⟨"code", "min_length", "minimum length not satisfied"⟩ : Error),
        ⟨"code", "one_of", "value not allowed"⟩, ⟨"age", "min", "value below minimum"⟩]
      [⟨"code", "min_length", "minimum length not satisfied"⟩,
        ⟨"age", "min", "value below minimum"⟩, ⟨"code", "one_of", "value not allowed"⟩] := by
  obtain ⟨res₁, res₂, hval₁, hval₂, hperm, _⟩ :=
    Validate_schedule_independent exampleSchema ("ab", 15) [0, 0, 1] [0, 1]
      (exampleSchema_returns _)
  have h₁ : exampleSchema.Validate ("ab", 15) [0, 0, 1]
      = some (some ⟨[⟨"code", "min_length", "minimum length not satisfied"⟩,
          ⟨"code", "one_of", "value not allowed"⟩, ⟨"age", "min", "value below minimum"⟩]⟩) := by
    decide
  have h₂ : exampleSchema.Validate ("ab", 15) [0, 1]
      = some (some ⟨[⟨"code", "min_length", "minimum length not satisfied"⟩,
          ⟨"age", "min", "value below minimum"⟩, ⟨"code", "one_of", "value not allowed"⟩]⟩) := by
    decide
  rw [h₁] at hval₁
  rw [h₂] at hval₂
  cases hval₁
  cases hval₂
  exact ⟨h₁, h₂, hperm⟩

/-! ## The report, `Unique`, `Pattern`, and the algebra of `All` and `Optional` -/

/-- C13: the report is append-only and its queries agree: after `e.Add(field, code, msg)`
the sequence `All()` is the one before followed by the violation `{field, code, msg}` alone;
`Has()` is true exactly when `All()` is not empty; and the fresh report `&Errors{}` has
`Has()` false. -/
theorem Errors_append_only (e : Errors) (field code msg : String) :
    (e.Add field code msg).All = e.All ++ [⟨field, code, msg⟩] ∧
    (e.Has = true ↔ e.All ≠ []) ∧
    (⟨[]⟩ : Errors).Has = false := by
  refine ⟨rfl, ?_, rfl⟩
  unfold Errors.Has Errors.All
  rw [decide_eq_true_iff]
  exact List.length_pos

theorem Unique_loop_eq {T : Type} [comparable T] (v seen : List T)
    (hhash : ∀ x ∈ v, comparable.hashable x = true) :
    Unique.loop v seen
      = some (if v.Pairwise (fun a b => comparable.eq a b = false) ∧
            ∀ x ∈ v, ∀ k ∈ seen, comparable.eq k x = false
          then ok else fail "unique" "duplicate values found") := by
  induction v generalizing seen with
  | nil => simp [Unique.loop]
  | cons item v ih =>
    have hitem : ¬ (comparable.hashable item = false) := by
      rw [hhash item (List.mem_cons_self _ _)]
      exact Bool.noConfusion
    have hv : ∀ x ∈ v, comparable.hashable x = true :=
      fun x hx => hhash x (List.mem_cons_of_mem _ hx)
    by_cases hseen : seen.any (fun k => comparable.eq k item) = true
    · have hneg : ¬ ((item :: v).Pairwise (fun a b => comparable.eq a b = false) ∧
          ∀ x ∈ item :: v, ∀ k ∈ seen, comparable.eq k x = false) := by
        intro h
        obtain ⟨k, hk, hkeq⟩ := List.any_eq_true.mp hseen
        rw [h.2 item (List.mem_cons_self _ _) k hk] at hkeq
        cases hkeq
      rw [Unique.loop, if_neg hitem, if_pos hseen, if_neg hneg]
    · rw [Unique.loop, if_neg hitem, if_neg hseen, ih (item :: seen) hv]
      have hnone : ∀ k ∈ seen, comparable.eq k item = false := by
        intro k hk
        cases hkeq : comparable.eq k item with
        | false => rfl
        | true => exact absurd (List.any_eq_true.mpr ⟨k, hk, hkeq⟩) hseen
      have hiff : (v.Pairwise (fun a b => comparable.eq a b = false) ∧
            ∀ x ∈ v, ∀ k ∈ item :: seen, comparable.eq k x = false) ↔
          ((item :: v).Pairwise (fun a b => comparable.eq a b = false) ∧
            ∀ x ∈ item :: v, ∀ k ∈ seen, comparable.eq k x = false) := by
        rw [List.pairwise_cons]
        constructor
        · rintro ⟨hpw, hall⟩
          refine ⟨⟨fun x hx => hall x hx item (List.mem_cons_self _ _), hpw⟩, ?_⟩
          intro x hx k hk
          rcases List.mem_cons.mp hx with h | h
          · rw [h]; exact hnone k hk
          · exact hall x h k (List.mem_cons_of_mem _ hk)
        · rintro ⟨⟨hhead, hpw⟩, hall⟩
          refine ⟨hpw, ?_⟩
          intro x hx k hk
          rcases List.mem_cons.mp hk with h | h
          · rw [h]; exact hhead x hx
          · exact hall x (List.mem_cons_of_mem _ hx) k h
      by_cases h : v.Pairwise (fun a b => comparable.eq a b = false) ∧
          ∀ x ∈ v, ∀ k ∈ item :: seen, comparable.eq k x = false
      · rw [if_pos h, if_pos (hiff.mp h)]
      · rw [if_neg h, if_neg (fun h' => h (hiff.mpr h'))]

/-- On strings, where every value can be hashed and `==` is equality, `Unique` passes exactly
on the lists without duplicates. -/
theorem Unique_loop_string (v : List String) :
    Unique.loop v []
      = some (if v.Nodup then ok else fail "unique" "duplicate values found") := by
  rw [Unique_loop_eq v [] (fun _ _ => rfl)]
  have hiff : (v.Pairwise (fun a b => comparable.eq a b = false) ∧
      ∀ x ∈ v, ∀ k ∈ ([] : List String), comparable.eq k x = false) ↔ v.Nodup := by
    constructor
    · rintro ⟨hpw, _⟩
      exact hpw.imp (fun {a b} hab => of_decide_eq_false hab)
    · intro hnd
      refine ⟨List.Pairwise.imp (fun {a b} hab => decide_eq_false hab) hnd, ?_⟩
      intro x _ k hk
      cases hk
  by_cases h : v.Nodup
  · rw [if_pos h, if_pos (hiff.mpr h)]
  · rw [if_neg h, if_neg (fun h' => h (hiff.mp h'))]

/-- C14 as stated fails: on the slice that holds the one value `[]int{1}` as an `any`, where
no two positions hold equal elements, `Unique()` does not pass: the lookup in the map
panics; and the same on the slice that holds that value twice, where it does not fail with
"unique" either. -/
theorem Unique_unhashable_counterexample :
    [AnyValue.ints [1]].length = 1 ∧
    call Unique [AnyValue.ints [1]] = none ∧
    call Unique [AnyValue.ints [1]] ≠ some (true, none) ∧
    call Unique [AnyValue.ints [1], AnyValue.ints [1]] = none ∧
    call Unique [AnyValue.ints [1], AnyValue.ints [1]]
      ≠ some (false, some ⟨"unique", "duplicate values found"⟩) := by
  refine ⟨rfl, rfl, ?_, rfl, ?_⟩
  · intro h
    have hnone : call Unique [AnyValue.ints [1]] = none := rfl
    rw [hnone] at h
    cases h
  · intro h
    have hnone : call Unique [AnyValue.ints [1], AnyValue.ints [1]] = none := rfl
    rw [hnone] at h
    cases h

/-- C14, amended: for every slice `v` of a comparable type whose elements can all be hashed
as keys of a map, `Unique()(v)` returns `(true, nil)` if and only if no two positions of `v`
hold elements that are equal under `==`, and otherwise returns `false` with the error
`{"unique", "duplicate values found"}`; the empty slice (which is also the nil slice)
passes. -/
theorem Unique_hashable_passes_iff {T : Type} [comparable T] (v : List T)
    (hhash : ∀ x ∈ v, comparable.hashable x = true) :
    (call Unique v = some (true, none) ↔
      ∀ (i j : Nat) (hi : i < v.length) (hj : j < v.length), i < j →
        comparable.eq v[i] v[j] = false) ∧
    ((¬ ∀ (i j : Nat) (hi : i < v.length) (hj : j < v.length), i < j →
        comparable.eq v[i] v[j] = false) →
      call Unique v = some (false, some ⟨"unique", "duplicate values found"⟩)) ∧
    call (Unique : Rule (List T)) [] = some (true, none) := by
  have hcall : call Unique v
      = some (if v.Pairwise (fun a b => comparable.eq a b = false) then ok
          else fail "unique" "duplicate values found") := by
    show Unique.loop v [] = _
    rw [Unique_loop_eq v [] hhash]
    simp
  have hpos : v.Pairwise (fun a b => comparable.eq a b = false) ↔
      ∀ (i j : Nat) (hi : i < v.length) (hj : j < v.length), i < j →
        comparable.eq v[i] v[j] = false := List.pairwise_iff_getElem
  rw [← hpos, hcall]
  refine ⟨?_, ?_, rfl⟩
  · by_cases h : v.Pairwise (fun a b => comparable.eq a b = false)
    · simp [h, ok]
    · simp [h, fail]
  · intro h
    rw [if_neg h]
    rfl

theorem Unique_hashable_passes_iff_witness :
    call Unique ["admin", "admin"] = some (false, some ⟨"unique", "duplicate values found"⟩) ∧
    call Unique [AnyValue.int 1, AnyValue.string "1", AnyValue.int 2] = some (true, none) :=
  ⟨(Unique_hashable_passes_iff ["admin", "admin"] (fun _ _ => rfl)).2.1
      (fun h => absurd (h 0 1 (by decide) (by decide) (by decide)) (by decide)),
   (Unique_hashable_passes_iff [AnyValue.int 1, AnyValue.string "1", AnyValue.int 2]
      (by decide)).1.mpr
      (List.pairwise_iff_getElem.mp
        (by decide : List.Pairwise (fun a b => comparable.eq a b = false)
          [AnyValue.int 1, AnyValue.string "1", AnyValue.int 2]))⟩

/-- A slice that holds a hashable value twice passes exactly when the value is not `==` to
itself, as NaN is among the floats. -/
theorem Unique_twice {T : Type} [comparable T] (x : T) (hx : comparable.hashable x = true) :
    call Unique [x, x] = some (true, none) ↔ comparable.eq x x = false := by
  show Unique.loop [x, x] [] = _ ↔ _
  have hne : ¬ (comparable.hashable x = false) := by
    rw [hx]
    exact Bool.noConfusion
  cases hxx : comparable.eq x x with
  | false => simp [Unique.loop, hne, hxx, ok]
  | true => simp [Unique.loop, hne, hxx, fail]

/-- C15: `Pattern(nil)` does not panic: on every string it returns `false` with the non-nil
error `{"pattern", "pattern is not configured"}`. -/
theorem Pattern_nil_fails (v : String) :
    call (Pattern none) v = some (false, some ⟨"pattern", "pattern is not configured"⟩) ∧
    ∃ e, failsWith (Pattern none) v (some e) ∧ e.Code = "pattern" ∧
      e.Message = "pattern is not configured" := by
  have hcall : call (Pattern none) v
      = some (false, some ⟨"pattern", "pattern is not configured"⟩) := by
    show some (fail "pattern" "pattern is not configured") = _
    rfl
  exact ⟨hcall, ⟨"pattern", "pattern is not configured"⟩, hcall, rfl, rfl⟩

theorem All_loop_append {T : Type} (v : T) (xs rest : List (Rule T)) :
    All.loop v (xs ++ rest)
      = match All.loop v xs with
        | some (true, _) => All.loop v rest
        | o => o := by
  induction xs with
  | nil => rfl
  | cons r xs ih =>
    cases hr : call r v with
    | none => simp only [List.cons_append, All.loop, hr]
    | some o =>
      obtain ⟨b, e⟩ := o
      cases b with
      | true => simp only [List.cons_append, All.loop, hr]; exact ih
      | false => simp only [List.cons_append, All.loop, hr]

theorem All_loop_nested {T : Type} (v : T) (ys zs : List (Rule T)) :
    All.loop v (All ys :: zs) = All.loop v (ys ++ zs) := by
  have hcall : call (All ys) v = All.loop v ys := rfl
  rw [All_loop_append, All.loop, hcall]
  cases hys : All.loop v ys with
  | none => rfl
  | some o =>
    obtain ⟨b, e⟩ := o
    cases b <;> rfl

/-- C19: `All` is associative under nesting: `All(xs ++ [All(ys)] ++ zs)` and
`All(xs ++ ys ++ zs)` yield the same result of the call on every value (the same bool and
error, and the same panic when a rule panics); so `All(All(a, b), c)`, `All(a, All(b, c))`
and `All(a, b, c)` agree on every input; and `All()` passes on every input. -/
theorem All_nested_assoc {T : Type} (xs ys zs : List (Rule T)) (v : T) :
    call (All (xs ++ [All ys] ++ zs)) v = call (All (xs ++ ys ++ zs)) v ∧
    (∀ a b c : Rule T,
      call (All [All [a, b], c]) v = call (All [a, b, c]) v ∧
      call (All [a, All [b, c]]) v = call (All [a, b, c]) v) ∧
    call (All ([] : List (Rule T))) v = some (true, none) := by
  have hgen : ∀ xs ys zs : List (Rule T),
      All.loop v (xs ++ [All ys] ++ zs) = All.loop v (xs ++ ys ++ zs) := by
    intro xs ys zs
    rw [List.append_assoc, List.append_assoc, All_loop_append v xs,
      All_loop_append v xs (ys ++ zs)]
    have hmid : All.loop v ([All ys] ++ zs) = All.loop v (ys ++ zs) :=
      All_loop_nested v ys zs
    rw [hmid]
  refine ⟨hgen xs ys zs, ?_, rfl⟩
  intro a b c
  exact ⟨hgen [] [a, b] [c], hgen [a] [b, c] []⟩

/-- C20: `Optional` is idempotent: `Optional(Optional(r))` and `Optional(r)` yield the same
result of the call on every value, for every rule `r`. -/
theorem Optional_idempotent {T : Type} [DecidableEq T] [ZeroValue T] (r : Rule T) (v : T) :
    call (Optional (Optional r)) v = call (Optional r) v := by
  show (if v = ZeroValue.zero then some ok else call (Optional r) v) = call (Optional r) v
  by_cases hz : v = ZeroValue.zero
  · rw [if_pos hz]
    show some ok = (if v = ZeroValue.zero then some ok else call r v)
    rw [if_pos hz]
  · rw [if_neg hz]

/-! ## Registration -/

theorem set_length_append_singleton {α : Type*} (l : List α) (a b : α) :
    (l ++ [a]).set l.length b = l ++ [b] := by
  induction l with
  | nil => rfl
  | cons x l ih => simp only [List.cons_append, List.length_cons, List.set_cons_succ, ih]

theorem UseAll_eq {T F : Type} (rules : List (Rule F)) (f : FieldBuilder T F) (s : Schema T)
    (hp : f.pointsTo s) :
    FieldBuilder.UseAll rules (f, s)
      = (⟨f.index, ⟨f.field.name, f.field.getter, f.field.rules ++ rules⟩⟩,
          ⟨s.fields.set f.index
            ⟨F, ⟨f.field.name, f.field.getter, f.field.rules ++ rules⟩⟩⟩) := by
  induction rules generalizing f s with
  | nil =>
    have hset : s.fields.set f.index ⟨F, f.field⟩ = s.fields :=
      set_same_of_getElem? s.fields f.index ⟨F, f.field⟩ hp
    simp only [FieldBuilder.UseAll, List.append_nil]
    rw [hset]
  | cons rule rules ih =>
    have hlt : f.index < s.fields.length := (List.getElem?_eq_some.mp hp).1
    have hp' : (f.Use rule s).1.pointsTo (f.Use rule s).2 := by
      show (s.fields.set f.index _)[f.index]? = _
      rw [List.getElem?_set_self hlt]
      rfl
    have h := ih (f.Use rule s).1 (f.Use rule s).2 hp'
    simp only [FieldBuilder.UseAll]
    rw [h]
    simp only [FieldBuilder.Use, List.set_set, List.append_assoc, List.singleton_append]

/-- C12: `Field(s, name, getter)` leaves the bindings of the schema as they are and adds,
at the end, one binding with that name and getter and an empty chain, which its handle
points to.  `Use(rule)` on a handle that points into the schema appends the rule (a nil one
too) at the end of the chain of its binding, keeps the rules before it, leaves every other
binding and the number of bindings unchanged, and returns the handle on the same binding.
After `Use(r1)...Use(rn)` on a fresh field its chain is exactly `[r1, ..., rn]`. -/
theorem Field_Use_append {T F : Type} (s : Schema T) (name : String) (getter : T → F) :
    (Field s name getter).2.fields = s.fields ++ [⟨F, ⟨name, getter, []⟩⟩] ∧
    (Field s name getter).1.pointsTo (Field s name getter).2 ∧
    (∀ (f : FieldBuilder T F) (rule : Rule F) (s' : Schema T), f.pointsTo s' →
      (f.Use rule s').2.fields[f.index]?
        = some ⟨F, ⟨f.field.name, f.field.getter, f.field.rules ++ [rule]⟩⟩ ∧
      (∀ j, j ≠ f.index → (f.Use rule s').2.fields[j]? = s'.fields[j]?) ∧
      (f.Use rule s').2.fields.length = s'.fields.length ∧
      (f.Use rule s').1.index = f.index ∧
      (f.Use rule s').1.pointsTo (f.Use rule s').2) ∧
    (∀ rules : List (Rule F),
      (FieldBuilder.UseAll rules (Field s name getter)).2.fields
        = s.fields ++ [⟨F, ⟨name, getter, rules⟩⟩] ∧
      (FieldBuilder.UseAll rules (Field s name getter)).1.index = s.fields.length) := by
  have hfresh : (Field s name getter).1.pointsTo (Field s name getter).2 := by
    show (s.fields ++ [(⟨F, ⟨name, getter, []⟩⟩ : schemaField T)])[s.fields.length]?
      = some ⟨F, ⟨name, getter, []⟩⟩
    rw [List.getElem?_append_right (Nat.le_refl _)]
    simp
  refine ⟨rfl, hfresh, ?_, ?_⟩
  · intro f rule s' hp
    have hlt : f.index < s'.fields.length := (List.getElem?_eq_some.mp hp).1
    have hcell : (f.Use rule s').2.fields[f.index]?
        = some ⟨F, ⟨f.field.name, f.field.getter, f.field.rules ++ [rule]⟩⟩ := by
      show (s'.fields.set f.index _)[f.index]? = _
      rw [List.getElem?_set_self hlt]
    refine ⟨hcell, ?_, ?_, rfl, hcell⟩
    · intro j hj
      show (s'.fields.set f.index _)[j]? = _
      rw [List.getElem?_set_ne (Ne.symm hj)]
    · show (s'.fields.set f.index _).length = _
      rw [List.length_set]
  · intro rules
    have h := UseAll_eq rules (Field s name getter).1 (Field s name getter).2 hfresh
    have hpair : Field s name getter
        = ((Field s name getter).1, (Field s name getter).2) := rfl
    rw [hpair, h]
    refine ⟨?_, rfl⟩
    exact set_length_append_singleton s.fields _ _

theorem Field_Use_append_witness :
    (FieldBuilder.UseAll [RequiredString, none, MinLen 3]
        (Field exampleSchema "email" (fun u => u.1))).2.fields
      = exampleSchema.fields
        ++ [⟨String, ⟨"email", fun u => u.1, [RequiredString, none, MinLen 3]⟩⟩] ∧
    ((Field exampleSchema "email" (fun u => u.1)).1.Use RequiredString
        (Field exampleSchema "email" (fun u => u.1)).2).2.fields[2]?
      = some ⟨String, ⟨"email", fun u => u.1, [RequiredString]⟩⟩ :=
  ⟨((Field_Use_append exampleSchema "email" (fun u => u.1)).2.2.2
      [RequiredString, none, MinLen 3]).1,
   ((Field_Use_append exampleSchema "email" (fun u => u.1)).2.2.1
      (Field exampleSchema "email" (fun u => u.1)).1 RequiredString
      (Field exampleSchema "email" (fun u => u.1)).2
      (Field_Use_append exampleSchema "email" (fun u => u.1)).2.1).1⟩

/-! ## Invariants of the reports of `Validate` -/

theorem visit_some_returns {F : Type} (name : String) (val : F) (slot : Rule F)
    (errs errs' : Errors) (h : fieldRule.visit name val slot errs = some errs') :
    slotReturns val slot := by
  intro g hg
  subst hg
  cases ho : g val with
  | none => simp [fieldRule.visit, ho] at h
  | some o => exact ⟨o, rfl⟩

theorem loop_some_returns {F : Type} (name : String) (val : F) (rules : List (Rule F))
    (errs errs' : Errors) (h : fieldRule.loop name val rules errs = some errs') :
    ∀ slot ∈ rules, slotReturns val slot := by
  induction rules generalizing errs with
  | nil => intro slot hslot; cases hslot
  | cons rule rules ih =>
    rw [fieldRule.loop] at h
    cases hv : fieldRule.visit name val rule errs with
    | none => rw [hv] at h; cases h
    | some errs₁ =>
      rw [hv, Option.some_bind] at h
      intro slot hslot
      rcases List.mem_cons.mp hslot with hs | hs
      · subst hs
        exact visit_some_returns name val slot errs errs₁ hv
      · exact ih errs₁ h slot hs

theorem wait_some_returns (tasks : List Task) (errs errs' : Errors)
    (h : Run.wait tasks errs = some errs') : ∀ t ∈ tasks, t.returns := by
  induction tasks generalizing errs with
  | nil => intro t ht; cases ht
  | cons t tasks ih =>
    rw [Run.wait] at h
    cases hl : fieldRule.loop t.name t.val t.rest errs with
    | none => rw [hl] at h; cases h
    | some errs₁ =>
      rw [hl, Option.some_bind] at h
      intro t' ht'
      rcases List.mem_cons.mp ht' with hs | hs
      · subst hs
        exact loop_some_returns _ _ _ errs errs₁ hl
      · exact ih errs₁ h t' hs

theorem step_some_returns (r r₁ : Run) (i : Nat) (h : r.step i = some r₁)
    (hret : ∀ t ∈ r₁.tasks, t.returns) : ∀ t ∈ r.tasks, t.returns := by
  cases hti : r.tasks[i]? with
  | none =>
    simp only [Run.step, hti, Option.some.injEq] at h
    subst h
    exact hret
  | some t =>
    obtain ⟨F, name, val, rest⟩ := t
    cases rest with
    | nil =>
      simp only [Run.step, hti, Option.some.injEq] at h
      subst h
      exact hret
    | cons rule rest =>
      cases hv : fieldRule.visit name val rule r.errs with
      | none => simp [Run.step, hti, hv] at h
      | some errs₁ =>
        simp only [Run.step, hti, hv, Option.some.injEq] at h
        subst h
        have hlt : i < r.tasks.length := (List.getElem?_eq_some.mp hti).1
        have hnew : Task.returns ⟨F, name, val, rest⟩ :=
          hret _ (List.getElem?_mem (List.getElem?_set_self hlt))
        intro t ht
        obtain ⟨j, hj⟩ := List.getElem?_of_mem ht
        by_cases hij : i = j
        · subst hij
          rw [hti] at hj
          rw [← Option.some.inj hj]
          intro slot hslot
          rcases List.mem_cons.mp hslot with hs | hs
          · rw [hs]
            exact visit_some_returns name val rule r.errs errs₁ hv
          · exact hnew slot hs
        · exact hret t (List.getElem?_mem (by rw [List.getElem?_set_ne hij]; exact hj))

theorem sched_some_returns (schedule : List Nat) (r r' : Run)
    (h : Run.sched schedule r = some r') (hret : ∀ t ∈ r'.tasks, t.returns) :
    ∀ t ∈ r.tasks, t.returns := by
  induction schedule generalizing r with
  | nil =>
    simp only [Run.sched, Option.some.injEq] at h
    subst h
    exact hret
  | cons i schedule ih =>
    rw [Run.sched] at h
    cases hstep : r.step i with
    | none => rw [hstep] at h; cases h
    | some r₁ =>
      rw [hstep, Option.some_bind] at h
      exact step_some_returns r r₁ i hstep (ih r₁ h)

/-- When `Validate` returns, no slot of the schema panics on the record: every slot is
visited before the barrier lets the call go on. -/
theorem Validate_some_returns {T : Type} (s : Schema T) (obj : T) (schedule : List Nat)
    (res : Option Errors) (h : s.Validate obj schedule = some res) :
    ∀ sf ∈ s.fields, sf.returns obj := by
  unfold Schema.Validate at h
  cases hs : Run.sched schedule ⟨⟨[]⟩, s.fields.map (Task.start obj)⟩ with
  | none => rw [hs] at h; cases h
  | some r =>
    rw [hs] at h
    cases hw : Run.wait r.tasks r.errs with
    | none => simp only [hw] at h; cases h
    | some errs =>
      have hall := sched_some_returns schedule _ r hs (wait_some_returns _ _ _ hw)
      intro sf hsf
      exact hall (Task.start obj sf) (List.mem_map_of_mem _ hsf)

theorem appended_shape {F : Type} (name : String) (val : F) (slot : Rule F) (x : Error)
    (hx : x ∈ fieldRule.appended name val slot) :
    x.Field = name ∧ x.Code ≠ "" ∧ x.Message ≠ "" := by
  cases slot with
  | none =>
    simp only [fieldRule.appended, fieldRule.visit, Errors.Add, List.nil_append,
      List.mem_singleton] at hx
    subst hx
    exact ⟨rfl, (by decide : ("invalid_rule" : String) ≠ ""),
      (by decide : ("rule is not configured" : String) ≠ "")⟩
  | some g =>
    cases ho : g val with
    | none => simp [fieldRule.appended, fieldRule.visit, ho] at hx
    | some o =>
      obtain ⟨b, e⟩ := o
      cases b with
      | true => simp [fieldRule.appended, fieldRule.visit, ho] at hx
      | false =>
        cases e with
        | none =>
          simp only [fieldRule.appended, fieldRule.visit, ho, Errors.Add, List.nil_append,
            List.mem_singleton] at hx
          subst hx
          exact ⟨rfl, (by decide : ("invalid" : String) ≠ ""),
            (by decide : ("validation failed" : String) ≠ "")⟩
        | some err =>
          simp only [fieldRule.appended, fieldRule.visit, ho, Errors.Add, List.nil_append,
            List.mem_singleton] at hx
          subst hx
          refine ⟨rfl, ?_, ?_⟩
          · by_cases hc : err.Code = ""
            · simp [hc]
            · simp [hc]
          · by_cases hm : err.Message = ""
            · simp [hm]
            · simp [hm]

/-- Every violation of a result of `Validate` is one a slot of some field binding of the
schema appends on the value of that field. -/
theorem Validate_violation_origin {T : Type} (s : Schema T) (obj : T) (schedule : List Nat)
    (res : Option Errors) (h : s.Validate obj schedule = some res) :
    (∀ x ∈ violations res, ∃ sf ∈ s.fields, ∃ slot ∈ sf.field.rules,
      x ∈ fieldRule.appended sf.field.name (sf.field.getter obj) slot) ∧
    (violations res).length
      = (s.fields.map (fun sf =>
          sf.field.rules.countP (slotFails (sf.field.getter obj)))).sum := by
  have hret := Validate_some_returns s obj schedule res h
  obtain ⟨out, hinter, hval⟩ := Validate_interleaving s obj schedule hret
  rw [hval] at h
  cases h
  rw [violations_ite]
  have hmap : s.fields.map (schemaField.alone obj)
      = s.fields.map (fun sf =>
          (sf.field.rules.map
            (fieldRule.appended sf.field.name (sf.field.getter obj))).flatten) := by
    apply List.map_congr_left
    intro sf hsf
    exact (alone_eq_pending obj sf (hret sf hsf)).2
  have hperm := hinter.perm
  rw [hmap] at hperm
  constructor
  · intro x hx
    have hx' := hperm.subset hx
    obtain ⟨l, hl, hxl⟩ := List.mem_flatten.mp hx'
    obtain ⟨sf, hsf, rfl⟩ := List.mem_map.mp hl
    obtain ⟨l', hl', hxl'⟩ := List.mem_flatten.mp hxl
    obtain ⟨slot, hslot, rfl⟩ := List.mem_map.mp hl'
    exact ⟨sf, hsf, slot, hslot, hxl'⟩
  · rw [hperm.length_eq, List.length_flatten, List.map_map]
    congr 1
    apply List.map_congr_left
    intro sf _
    exact appended_flatten_length _ _ _

/-- C17: every violation of a report `Validate` returns has a non-empty code and a non-empty
message, whatever the rules return as error (nil, an empty code, an empty message); and
`Validate` does return when no slot of the schema panics on the record. -/
theorem Validate_codes_nonempty {T : Type} (s : Schema T) (obj : T) (schedule : List Nat) :
    (∀ res, s.Validate obj schedule = some res →
      ∀ x ∈ violations res, x.Code ≠ "" ∧ x.Message ≠ "") ∧
    ((∀ sf ∈ s.fields, sf.returns obj) → ∃ res, s.Validate obj schedule = some res) := by
  constructor
  · intro res h x hx
    obtain ⟨sf, _, slot, _, hmem⟩ := (Validate_violation_origin s obj schedule res h).1 x hx
    exact (appended_shape _ _ slot x hmem).2
  · intro hret
    obtain ⟨out, _, hval⟩ := Validate_interleaving s obj schedule hret
    exact ⟨_, hval⟩

theorem Validate_codes_nonempty_witness :
    ∀ x ∈ [(⟨"code", "invalid", "validation failed"⟩ : Error),
        ⟨"code", "invalid", "no code"⟩, ⟨"code", "no_message", "validation failed"⟩,
        ⟨"code", "invalid", "validation failed"⟩, ⟨"code", "invalid_rule", "rule is not configured"⟩],
      x.Code ≠ "" ∧ x.Message ≠ "" :=
  (Validate_codes_nonempty
    (⟨[⟨String, ⟨"code", fun (u : String) => u,
        [some (fun _ => some (false, none)), some (fun _ => some (false, some ⟨"", "no code"⟩)),
          some (fun _ => some (false, some ⟨"no_message", ""⟩)),
          some (fun _ => some (false, some ⟨"", ""⟩)), none]⟩⟩]⟩ : Schema String)
    "x" [0, 0]).1
    (some ⟨[⟨"code", "invalid", "validation failed"⟩,
        ⟨"code", "invalid", "no code"⟩, ⟨"code", "no_message", "validation failed"⟩,
        ⟨"code", "invalid", "validation failed"⟩,
        ⟨"code", "invalid_rule", "rule is not configured"⟩]⟩)
    (by decide)

/-- C18: the number of violations of a result of `Validate` is at most the number of rule
slots of all the field bindings of the schema together, and the field of every violation is
the name of a field binding of the schema; and `Validate` does return when no slot of the
schema panics on the record. -/
theorem Validate_count_and_fields {T : Type} (s : Schema T) (obj : T) (schedule : List Nat) :
    (∀ res, s.Validate obj schedule = some res →
      (violations res).length ≤ (s.fields.map (fun sf => sf.field.rules.length)).sum ∧
      ∀ x ∈ violations res, ∃ sf ∈ s.fields, x.Field = sf.field.name) ∧
    ((∀ sf ∈ s.fields, sf.returns obj) → ∃ res, s.Validate obj schedule = some res) := by
  constructor
  · intro res h
    obtain ⟨horigin, hlen⟩ := Validate_violation_origin s obj schedule res h
    constructor
    · rw [hlen]
      apply List.sum_le_sum
      intro sf _
      exact List.countP_le_length _
    · intro x hx
      obtain ⟨sf, hsf, slot, _, hmem⟩ := horigin x hx
      exact ⟨sf, hsf, (appended_shape _ _ slot x hmem).1⟩
  · intro hret
    obtain ⟨out, _, hval⟩ := Validate_interleaving s obj schedule hret
    exact ⟨_, hval⟩

theorem Validate_count_and_fields_witness :
    (violations (some ⟨[⟨"code", "min_length", "minimum length not satisfied"⟩,
        ⟨"age", "min", "value below minimum"⟩, ⟨"code", "one_of", "value not allowed"⟩]⟩)).length
      ≤ (exampleSchema.fields.map (fun sf => sf.field.rules.length)).sum ∧
    ∀ x ∈ violations (some ⟨[⟨"code", "min_length", "minimum length not satisfied"⟩,
        ⟨"age", "min", "value below minimum"⟩, ⟨"code", "one_of", "value not allowed"⟩]⟩),
      ∃ sf ∈ exampleSchema.fields, x.Field = sf.field.name :=
  (Validate_count_and_fields exampleSchema ("ab", 15) [0, 1]).1 _ (by decide)

/-! ## The schema of the tests -/

theorem testSchema_fields (parses : String → Bool) :
    (testSchema parses).fields
      = [⟨String, ⟨"email", fun u => u.Email, [RequiredString, Email parses]⟩⟩,
          ⟨Int, ⟨"age", fun u => u.Age, [Min 18]⟩⟩,
          ⟨List String, ⟨"roles", fun u => u.Roles, [Unique]⟩⟩] :=
  rfl

theorem testSchema_returns (parses : String → Bool) (u : testUser) :
    ∀ sf ∈ (testSchema parses).fields, sf.returns u := by
  intro sf hsf
  rw [testSchema_fields] at hsf
  simp only [List.mem_cons, List.mem_singleton, List.not_mem_nil, or_false] at hsf
  rcases hsf with h | h | h <;> subst h
  · intro slot hslot
    simp only [List.mem_cons, List.mem_singleton, List.not_mem_nil, or_false] at hslot
    rcases hslot with h | h <;> subst h
    · intro g hg
      cases hg
      by_cases ht : TrimSpace u.Email = ""
      · exact ⟨_, if_pos ht⟩
      · exact ⟨_, if_neg ht⟩
    · intro g hg
      cases hg
      by_cases he : u.Email = ""
      · exact ⟨_, if_pos he⟩
      · by_cases hp : parses u.Email = false
        · exact ⟨fail "email" "invalid email format", by simp [he, hp]⟩
        · exact ⟨ok, by simp [he, hp]⟩
  · intro slot hslot
    simp only [List.mem_singleton] at hslot
    subst hslot
    intro g hg
    cases hg
    by_cases hlt : u.Age < 18
    · exact ⟨_, if_pos hlt⟩
    · exact ⟨_, if_neg hlt⟩
  · intro slot hslot
    simp only [List.mem_singleton] at hslot
    subst hslot
    intro g hg
    cases hg
    exact ⟨_, Unique_loop_string u.Roles⟩

/-- C11: on the schema of the tests (email: `RequiredString` then `Email`; age: `Min(18)`;
roles: `Unique`), for every record whose email is the empty string, whose age is below 18
and whose roles hold a repeated element, `Validate` returns, under every schedule, a non-nil
report of exactly three violations: (email, "required"), (age, "min") and
(roles, "unique"), in some order. -/
theorem testSchema_three_violations (parses : String → Bool) (u : testUser)
    (schedule : List Nat) (hemail : u.Email = "") (hage : u.Age < 18)
    (hroles : ¬ u.Roles.Nodup) :
    ∃ errs, (testSchema parses).Validate u schedule = some (some errs) ∧
      errs.All.Perm [⟨"email", "required", "value is required"⟩,
        ⟨"age", "min", "value below minimum"⟩,
        ⟨"roles", "unique", "duplicate values found"⟩] ∧
      errs.All.length = 3 := by
  have hret := testSchema_returns parses u
  obtain ⟨out, hinter, hval⟩ := Validate_interleaving (testSchema parses) u schedule hret
  have halone : (testSchema parses).fields.map (schemaField.alone u)
      = [[⟨"email", "required", "value is required"⟩],
          [⟨"age", "min", "value below minimum"⟩],
          [⟨"roles", "unique", "duplicate values found"⟩]] := by
    have huniq : Unique.loop u.Roles [] = some (fail "unique" "duplicate values found") := by
      rw [Unique_loop_string, if_neg hroles]
    rw [testSchema_fields]
    simp only [List.map_cons, List.map_nil, schemaField.alone, schemaField.validate,
      fieldRule.validate, hemail]
    refine congrArg₂ _ rfl (congrArg₂ _ ?_ (congrArg₂ _ ?_ rfl))
    · simp [fieldRule.loop, fieldRule.visit, Min, hage, fail, Errors.Add]
    · simp [fieldRule.loop, fieldRule.visit, Unique, huniq, fail, Errors.Add]
  rw [halone] at hinter
  have hperm := hinter.perm
  simp only [List.flatten_cons, List.flatten_nil, List.singleton_append, List.append_nil]
    at hperm
  have hne : out ≠ [] := by
    intro h
    rw [h] at hperm
    exact absurd hperm.length_eq (by simp)
  refine ⟨⟨out⟩, ?_, hperm, ?_⟩
  · rw [hval, if_neg hne]
  · exact hperm.length_eq

theorem testSchema_three_violations_witness :
    ∃ errs, (testSchema (fun _ => true)).Validate ⟨"", 15, ["admin", "admin"]⟩ [2, 0, 1]
        = some (some errs) ∧
      errs.All.Perm [⟨"email", "required", "value is required"⟩,
        ⟨"age", "min", "value below minimum"⟩,
        ⟨"roles", "unique", "duplicate values found"⟩] ∧
      errs.All.length = 3 :=
  testSchema_three_violations (fun _ => true) ⟨"", 15, ["admin", "admin"]⟩ [2, 0, 1] rfl
    (by decide) (by decide)

/-! ## The mutex, the wait group and the report, statement by statement -/

/-- What one statement of a goroutine does: a step outside the critical section that
leaves what is shared as it is; the return, with `wg.Done()`; `Lock` on a free mutex; the
read of `e.list` in `Add`; the store of the appended slice; `Unlock`. -/
theorem act_cases (g g' : Goroutine) (i : Nat) (sh sh' : Shared)
    (h : g.act i sh = some (g', sh')) :
    (sh' = sh ∧ g.phase.critical = false ∧ g'.phase.critical = false ∧
      g'.pending = g.pending ∧ g'.phase.live = g.phase.live ∧
      (g.task.returns → g'.task.returns)) ∨
    (g.phase = .loop ∧ g.task.rest = [] ∧ g' = ⟨g.task, .done⟩ ∧ sh.wg ≠ 0 ∧
      sh' = ⟨sh.errs, sh.mutex, sh.wg - 1⟩) ∨
    (∃ x, g.phase = .lock x ∧ sh.mutex = none ∧ g' = ⟨g.task, .add x⟩ ∧
      sh' = ⟨sh.errs, some i, sh.wg⟩) ∨
    (∃ x, g.phase = .add x ∧ g' = ⟨g.task, .store sh.errs.list x⟩ ∧ sh' = sh) ∨
    (∃ old x, g.phase = .store old x ∧ g' = ⟨g.task, .unlock⟩ ∧
      sh' = ⟨⟨old ++ [x]⟩, sh.mutex, sh.wg⟩) ∨
    (g.phase = .unlock ∧ g' = ⟨g.task, .loop⟩ ∧ sh' = ⟨sh.errs, none, sh.wg⟩) := by
  obtain ⟨⟨F, name, val, rest⟩, phase⟩ := g
  cases phase with
  | loop =>
    cases rest with
    | nil =>
      by_cases hwg : sh.wg = 0
      · simp [Goroutine.act, hwg] at h
      · simp only [Goroutine.act, hwg, if_false, Option.some.injEq, Prod.mk.injEq] at h
        exact Or.inr (Or.inl ⟨rfl, rfl, h.1.symm, hwg, h.2.symm⟩)
    | cons rule rest =>
      left
      cases rule with
      | none =>
        simp only [Goroutine.act, Option.some.injEq, Prod.mk.injEq] at h
        obtain ⟨hg, hsh⟩ := h
        subst hg hsh
        exact ⟨rfl, rfl, rfl, rfl, rfl,
          fun hr slot hslot => hr slot (List.mem_cons_of_mem _ hslot)⟩
      | some f =>
        cases ho : f val with
        | none => simp [Goroutine.act, ho] at h
        | some o =>
          obtain ⟨b, e⟩ := o
          cases b with
          | true =>
            simp only [Goroutine.act, ho, Option.some.injEq, Prod.mk.injEq] at h
            obtain ⟨hg, hsh⟩ := h
            subst hg hsh
            refine ⟨rfl, rfl, rfl, ?_, rfl,
              fun hr slot hslot => hr slot (List.mem_cons_of_mem _ hslot)⟩
            simp [Goroutine.pending, Phase.inHand, Task.pending, fieldRule.appended,
              fieldRule.visit, ho]
          | false =>
            cases e with
            | none =>
              simp only [Goroutine.act, ho, Option.some.injEq, Prod.mk.injEq] at h
              obtain ⟨hg, hsh⟩ := h
              subst hg hsh
              refine ⟨rfl, rfl, rfl, ?_, rfl,
                fun hr slot hslot => hr slot (List.mem_cons_of_mem _ hslot)⟩
              simp [Goroutine.pending, Phase.inHand, Task.pending, fieldRule.appended,
                fieldRule.visit, ho, Errors.Add]
            | some err =>
              simp only [Goroutine.act, ho, Option.some.injEq, Prod.mk.injEq] at h
              obtain ⟨hg, hsh⟩ := h
              subst hg hsh
              refine ⟨rfl, rfl, rfl, ?_, rfl,
                fun hr slot hslot => hr slot (List.mem_cons_of_mem _ hslot)⟩
              simp [Goroutine.pending, Phase.inHand, Task.pending, fieldRule.appended,
                fieldRule.visit, ho, Errors.Add]
  | lock x =>
    cases hm : sh.mutex with
    | none =>
      simp only [Goroutine.act, hm, Option.some.injEq, Prod.mk.injEq] at h
      exact Or.inr (Or.inr (Or.inl ⟨x, rfl, rfl, h.1.symm, h.2.symm⟩))
    | some j =>
      simp only [Goroutine.act, hm, Option.some.injEq, Prod.mk.injEq] at h
      obtain ⟨hg, hsh⟩ := h
      subst hg hsh
      exact Or.inl ⟨rfl, rfl, rfl, rfl, rfl, fun hr => hr⟩
  | add x =>
    simp only [Goroutine.act, Option.some.injEq, Prod.mk.injEq] at h
    exact Or.inr (Or.inr (Or.inr (Or.inl ⟨x, rfl, h.1.symm, h.2.symm⟩)))
  | store old x =>
    simp only [Goroutine.act, Option.some.injEq, Prod.mk.injEq] at h
    exact Or.inr (Or.inr (Or.inr (Or.inr (Or.inl ⟨old, x, rfl, h.1.symm, h.2.symm⟩))))
  | unlock =>
    simp only [Goroutine.act, Option.some.injEq, Prod.mk.injEq] at h
    exact Or.inr (Or.inr (Or.inr (Or.inr (Or.inr ⟨rfl, h.1.symm, h.2.symm⟩))))
  | done =>
    simp only [Goroutine.act, Option.some.injEq, Prod.mk.injEq] at h
    obtain ⟨hg, hsh⟩ := h
    subst hg hsh
    exact Or.inl ⟨rfl, rfl, rfl, rfl, rfl, fun hr => hr⟩

theorem countP_set_add {α : Type*} (p : α → Bool) (l : List α) (i : Nat) (a b : α)
    (h : l[i]? = some a) :
    (l.set i b).countP p + (if p a = true then 1 else 0)
      = l.countP p + (if p b = true then 1 else 0) := by
  induction l generalizing i with
  | nil => simp at h
  | cons x l ih =>
    cases i with
    | zero =>
      simp only [List.getElem?_cons_zero, Option.some.injEq] at h
      subst h
      simp only [List.set_cons_zero, List.countP_cons]
      omega
    | succ i =>
      simp only [List.getElem?_cons_succ] at h
      have := ih i h
      simp only [List.set_cons_succ, List.countP_cons]
      omega

theorem Inv_start {T : Type} (s : Schema T) (obj : T) :
    (Invocation.start s obj).Inv (Invocation.start s obj).pendings := by
  refine ⟨?_, ?_, ?_, rfl, ?_, ?_, ?_⟩
  · intro i g hg
    simp [Invocation.start] at hg
  · intro i hi
    simp [Invocation.start] at hi
  · intro i g old x hg
    simp [Invocation.start] at hg
  · intro res hres
    simp [Invocation.start] at hres
  · simp [Invocation.start, Invocation.pendings]
  · intro out hout
    simpa [Invocation.start] using hout

theorem Inv_stepMain {T : Type} (P : List (List Error)) (c : Invocation T) (hinv : c.Inv P) :
    c.stepMain.Inv P := by
  obtain ⟨obj, todo, result, sh, tasks⟩ := c
  cases result with
  | some res => exact hinv
  | none =>
    cases todo with
    | cons f todo =>
      have hheld := hinv.held
      have howner := hinv.owner
      have hfresh := hinv.fresh
      have hcount := hinv.count
      have hsofar := hinv.sofar
      have hsize := hinv.size
      simp only at hheld howner hfresh hcount hsofar hsize
      refine ⟨?_, ?_, ?_, ?_, ?_, ?_, ?_⟩
      · intro i g hg
        show g.phase.critical = true ↔ sh.mutex = some i
        have hg' : (tasks ++ [⟨Task.start obj f, .loop⟩])[i]? = some g := hg
        by_cases hlt : i < tasks.length
        · rw [List.getElem?_append_left hlt] at hg'
          exact hheld i g hg'
        · rw [List.getElem?_append_right (Nat.le_of_not_lt hlt)] at hg'
          have hi : i - tasks.length = 0 := by
            by_contra hne
            rw [List.getElem?_eq_none (by simp; omega)] at hg'
            cases hg'
          rw [hi] at hg'
          simp only [List.getElem?_cons_zero, Option.some.injEq] at hg'
          subst hg'
          constructor
          · intro hc
            cases hc
          · intro hm
            exact absurd (howner i hm) hlt
      · intro i hi
        have := howner i hi
        show i < (tasks ++ [_]).length
        rw [List.length_append]
        omega
      · intro i g old x hg hphase
        show old = sh.errs.list
        have hg' : (tasks ++ [⟨Task.start obj f, .loop⟩])[i]? = some g := hg
        by_cases hlt : i < tasks.length
        · rw [List.getElem?_append_left hlt] at hg'
          exact hfresh i g old x hg' hphase
        · rw [List.getElem?_append_right (Nat.le_of_not_lt hlt)] at hg'
          have hi : i - tasks.length = 0 := by
            by_contra hne
            rw [List.getElem?_eq_none (by simp; omega)] at hg'
            cases hg'
          rw [hi] at hg'
          simp only [List.getElem?_cons_zero, Option.some.injEq] at hg'
          subst hg'
          cases hphase
      · show sh.wg + 1 = (tasks ++ [(⟨Task.start obj f, Phase.loop⟩ : Goroutine)]).countP
          (fun g => g.phase.live)
        rw [List.countP_append, ← hcount]
        rfl
      · intro res hres
        cases hres
      · show (tasks ++ [(⟨Task.start obj f, Phase.loop⟩ : Goroutine)]).length + todo.length
          = P.length
        rw [← hsize]
        simp only [List.length_append, List.length_cons, List.length_nil]
        omega
      · intro out hout
        apply hsofar out
        have heq : (Invocation.mk obj (f :: todo) none sh tasks).pendings
            = (Invocation.mk obj (f :: todo) none sh tasks).stepMain.pendings := by
          simp [Invocation.pendings, Invocation.stepMain, Goroutine.pending, Phase.inHand]
        rw [heq]
        exact hout
    | nil =>
      by_cases hwg : sh.wg = 0
      · have hstep : (Invocation.mk obj [] none sh tasks).stepMain
            = ⟨obj, [], some (if sh.errs.Has then some sh.errs else none), sh, tasks⟩ := by
          simp [Invocation.stepMain, hwg]
        rw [hstep]
        refine ⟨hinv.held, hinv.owner, hinv.fresh, hinv.count, ?_, hinv.size, hinv.sofar⟩
        intro res hres
        simp only [Option.some.injEq] at hres
        subst hres
        exact ⟨rfl, hwg, rfl⟩
      · have hstep : (Invocation.mk obj [] none sh tasks).stepMain
            = ⟨obj, [], none, sh, tasks⟩ := by
          simp [Invocation.stepMain, hwg]
        rw [hstep]
        exact hinv

/-- The effect of one statement of a goroutine on the mutex, on the report and on the
counter of the wait group. -/
theorem act_summary (g g' : Goroutine) (i : Nat) (sh sh' : Shared)
    (h : g.act i sh = some (g', sh')) :
    ((sh'.mutex = sh.mutex ∧ g'.phase.critical = g.phase.critical) ∨
      (sh.mutex = none ∧ sh'.mutex = some i ∧ g'.phase.critical = true) ∨
      (g.phase.critical = true ∧ sh'.mutex = none ∧ g'.phase.critical = false)) ∧
    ((sh'.errs = sh.errs ∧ g'.pending = g.pending ∧
        ∀ old x, g'.phase = Phase.store old x →
          old = sh.errs.list ∨ g.phase = Phase.store old x) ∨
      ∃ old x, g.phase = Phase.store old x ∧ sh'.errs = ⟨old ++ [x]⟩ ∧
        g.pending = x :: g'.pending ∧ g'.phase = Phase.unlock) ∧
    (sh'.wg + (if g.phase.live = true then 1 else 0)
      = sh.wg + (if g'.phase.live = true then 1 else 0)) ∧
    (g.phase = Phase.done → g' = g ∧ sh' = sh) := by
  obtain ⟨task, phase⟩ := g
  rcases act_cases ⟨task, phase⟩ g' i sh sh' h with
    ⟨hsh, hc, hc', hpend, hlive, _⟩ | ⟨hphase, hrest, hg', hwg, hsh⟩ |
    ⟨x, hphase, hm, hg', hsh⟩ | ⟨x, hphase, hg', hsh⟩ | ⟨old, x, hphase, hg', hsh⟩ |
    ⟨hphase, hg', hsh⟩
  · subst hsh
    refine ⟨Or.inl ⟨rfl, by rw [hc, hc']⟩, Or.inl ⟨rfl, hpend, ?_⟩, by rw [hlive], ?_⟩
    · intro old x hstore
      rw [hstore] at hc'
      cases hc'
    · intro hdone
      simp only at hdone
      subst hdone
      simp only [Goroutine.act, Option.some.injEq, Prod.mk.injEq] at h
      exact ⟨h.1.symm, rfl⟩
  · simp only at hphase hrest
    subst hphase hg' hsh
    refine ⟨Or.inl ⟨rfl, rfl⟩, Or.inl ⟨rfl, ?_, ?_⟩, ?_, ?_⟩
    · simp [Goroutine.pending, Phase.inHand, Task.pending, hrest]
    · intro old x hstore
      cases hstore
    · simp only [Phase.live]
      simp
      omega
    · intro hdone
      cases hdone
  · simp only at hphase
    subst hphase hg' hsh
    refine ⟨Or.inr (Or.inl ⟨hm, rfl, rfl⟩), Or.inl ⟨rfl, rfl, ?_⟩, rfl, ?_⟩
    · intro old y hstore
      cases hstore
    · intro hdone
      cases hdone
  · simp only at hphase
    subst hphase hg' hsh
    refine ⟨Or.inl ⟨rfl, rfl⟩, Or.inl ⟨rfl, rfl, ?_⟩, rfl, ?_⟩
    · intro old y hstore
      simp only [Phase.store.injEq] at hstore
      exact Or.inl hstore.1.symm
    · intro hdone
      cases hdone
  · simp only at hphase
    subst hphase hg' hsh
    refine ⟨Or.inl ⟨rfl, rfl⟩, Or.inr ⟨old, x, rfl, rfl, rfl, rfl⟩, rfl, ?_⟩
    intro hdone
    cases hdone
  · simp only at hphase
    subst hphase hg' hsh
    refine ⟨Or.inr (Or.inr ⟨rfl, rfl, rfl⟩), Or.inl ⟨rfl, rfl, ?_⟩, rfl, ?_⟩
    · intro old y hstore
      cases hstore
    · intro hdone
      cases hdone

theorem getElem?_set_cases {α : Type*} (l : List α) (i j : Nat) (a b : α)
    (h : (l.set i a)[j]? = some b) :
    (j = i ∧ b = a) ∨ (j ≠ i ∧ l[j]? = some b) := by
  by_cases hij : i = j
  · subst hij
    have hlt : i < l.length := by
      have := (List.getElem?_eq_some.mp h).1
      simpa using this
    rw [List.getElem?_set_self hlt] at h
    exact Or.inl ⟨rfl, (Option.some.inj h).symm⟩
  · rw [List.getElem?_set_ne hij] at h
    exact Or.inr ⟨fun hji => hij hji.symm, h⟩

theorem Inv_stepTask {T : Type} (P : List (List Error)) (c c' : Invocation T) (i : Nat)
    (hinv : c.Inv P) (h : c.stepTask i = some c') : c'.Inv P := by
  obtain ⟨obj, todo, result, sh, tasks⟩ := c
  cases hti : tasks[i]? with
  | none =>
    simp only [Invocation.stepTask, hti, Option.some.injEq] at h
    subst h
    exact hinv
  | some g =>
    cases hact : g.act i sh with
    | none => simp [Invocation.stepTask, hti, hact] at h
    | some pair =>
      obtain ⟨g', sh'⟩ := pair
      simp only [Invocation.stepTask, hti, hact, Option.some.injEq] at h
      subst h
      have hlt : i < tasks.length := (List.getElem?_eq_some.mp hti).1
      obtain ⟨hmutex, herrs, hwg, hdone⟩ := act_summary g g' i sh sh' hact
      have hheld := hinv.held
      have howner := hinv.owner
      have hfresh := hinv.fresh
      have hcount := hinv.count
      have hret := hinv.returned
      have hsofar := hinv.sofar
      have hsize := hinv.size
      simp only at hheld howner hfresh hcount hret hsofar hsize
      have hgi := hheld i g hti
      refine ⟨?_, ?_, ?_, ?_, ?_, ?_, ?_⟩
      · intro j gj hj
        show gj.phase.critical = true ↔ sh'.mutex = some j
        rcases getElem?_set_cases tasks i j g' gj hj with ⟨hji, hgj⟩ | ⟨hji, hgj⟩
        · subst hji hgj
          rcases hmutex with ⟨hm, hc⟩ | ⟨_, hm, hc⟩ | ⟨_, hm, hc⟩
          · rw [hm, hc]
            exact hgi
          · rw [hm, hc]
            simp
          · rw [hm, hc]
            simp
        · have hgj' := hheld j gj hgj
          rcases hmutex with ⟨hm, _⟩ | ⟨hm0, hm, _⟩ | ⟨hc, hm, _⟩
          · rw [hm]
            exact hgj'
          · rw [hm0] at hgj'
            rw [hm, hgj']
            simp only [Option.some.injEq]
            constructor
            · intro hfalse
              cases hfalse
            · intro hij
              exact absurd hij.symm hji
          · have hmi := hgi.mp hc
            rw [hmi] at hgj'
            rw [hm, hgj']
            simp only [Option.some.injEq]
            constructor
            · intro hij
              exact absurd hij.symm hji
            · intro hfalse
              cases hfalse
      · intro j hj
        show j < (tasks.set i g').length
        rw [List.length_set]
        have hj' : sh'.mutex = some j := hj
        rcases hmutex with ⟨hm, _⟩ | ⟨_, hm, _⟩ | ⟨_, hm, _⟩
        · rw [hm] at hj'
          exact howner j hj'
        · rw [hm] at hj'
          cases hj'
          exact hlt
        · rw [hm] at hj'
          cases hj'
      · intro j gj old x hj hphase
        show old = sh'.errs.list
        rcases getElem?_set_cases tasks i j g' gj hj with ⟨hji, hgj⟩ | ⟨hji, hgj⟩
        · subst hji hgj
          rcases herrs with ⟨he, _, hstore⟩ | ⟨old', x', _, _, _, hunlock⟩
          · rw [he]
            rcases hstore old x hphase with hold | hold
            · exact hold
            · exact hfresh j g old x hti hold
          · rw [hunlock] at hphase
            cases hphase
        · rcases herrs with ⟨he, _, _⟩ | ⟨old', x', hgstore, _, _, _⟩
          · rw [he]
            exact hfresh j gj old x hgj hphase
          · have hci : sh.mutex = some i := hgi.mp (by rw [hgstore]; rfl)
            have hcj : sh.mutex = some j :=
              (hheld j gj hgj).mp (by rw [hphase]; rfl)
            rw [hci] at hcj
            exact absurd (Option.some.inj hcj).symm hji
      · show sh'.wg = (tasks.set i g').countP (fun g => g.phase.live)
        have hset := countP_set_add (fun g : Goroutine => g.phase.live) tasks i g g' hti
        simp only at hset
        omega
      · intro res hres
        show todo = [] ∧ sh'.wg = 0 ∧ res = (if sh'.errs.Has then some sh'.errs else none)
        obtain ⟨htodo, hzero, hviol⟩ := hret res hres
        have hnone : ∀ a ∈ tasks, ¬ (a.phase.live = true) := by
          have hz : tasks.countP (fun g => g.phase.live) = 0 := by omega
          exact List.countP_eq_zero.mp hz
        have hgdone : g.phase = Phase.done := by
          have hg := hnone g (List.getElem?_mem hti)
          cases hp : g.phase with
          | done => rfl
          | loop => rw [hp] at hg; exact absurd rfl hg
          | lock x => rw [hp] at hg; exact absurd rfl hg
          | add x => rw [hp] at hg; exact absurd rfl hg
          | store old x => rw [hp] at hg; exact absurd rfl hg
          | unlock => rw [hp] at hg; exact absurd rfl hg
        obtain ⟨_, hsh⟩ := hdone hgdone
        rw [hsh]
        exact ⟨htodo, hzero, hviol⟩
      · show (tasks.set i g').length + todo.length = P.length
        rw [List.length_set]
        exact hsize
      · intro out hout
        show Interleaving P (sh'.errs.list ++ out)
        have hpend : (Invocation.mk obj todo result sh' (tasks.set i g')).pendings
            = (Invocation.mk obj todo result sh tasks).pendings.set i g'.pending := by
          simp only [Invocation.pendings]
          rw [List.set_append_left _ _ (by simpa using hlt), List.map_set]
        have hgeti : (Invocation.mk obj todo result sh tasks).pendings[i]?
            = some g.pending := by
          simp only [Invocation.pendings]
          rw [List.getElem?_append_left (by simpa using hlt), List.getElem?_map, hti]
          rfl
        rw [hpend] at hout
        rcases herrs with ⟨he, hp, _⟩ | ⟨old, x, hgstore, he, hp, _⟩
        · rw [he]
          apply hsofar out
          rw [hp, set_same_of_getElem? _ _ _ hgeti] at hout
          exact hout
        · have hold : old = sh.errs.list := hfresh i g old x hti hgstore
          rw [he, hold]
          rw [hp] at hgeti
          have := hsofar (x :: out) (Interleaving.pick hgeti hout)
          simpa using this

/-- Every state a call of `Validate` reaches satisfies the invariant. -/
theorem Inv_run {T : Type} (P : List (List Error)) (schedule : List (Option Nat))
    (c c' : Invocation T) (hinv : c.Inv P) (h : Invocation.run schedule c = some c') :
    c'.Inv P := by
  induction schedule generalizing c with
  | nil =>
    simp only [Invocation.run, Option.some.injEq] at h
    subst h
    exact hinv
  | cons a schedule ih =>
    rw [Invocation.run] at h
    cases hstep : c.step a with
    | none => rw [hstep] at h; cases h
    | some c₁ =>
      rw [hstep, Option.some_bind] at h
      refine ih c₁ ?_ h
      cases a with
      | none =>
        simp only [Invocation.step, Option.some.injEq] at hstep
        subst hstep
        exact Inv_stepMain P c hinv
      | some i => exact Inv_stepTask P c c₁ i hinv hstep

theorem violations_of_Has (errs : Errors) :
    violations (if errs.Has then some errs else none) = errs.list ∧
    (if errs.Has then some errs else none)
      = (if errs.list = [] then none else some ⟨errs.list⟩) := by
  obtain ⟨l⟩ := errs
  cases l with
  | nil => simp [Errors.Has, violations]
  | cons x l => simp [Errors.Has, violations, Errors.All]

theorem phase_done_of_not_live (ph : Phase) (h : ¬ (ph.live = true)) : ph = Phase.done := by
  cases ph with
  | done => rfl
  | loop => exact absurd rfl h
  | lock x => exact absurd rfl h
  | add x => exact absurd rfl h
  | store old x => exact absurd rfl h
  | unlock => exact absurd rfl h

/-- In a state where the call has returned, every goroutine has returned, one was started
for each list of `P`, and the value returned holds an interleaving of `P`. -/
theorem Inv_returned {T : Type} (P : List (List Error)) (c : Invocation T) (hinv : c.Inv P)
    (res : Option Errors) (hres : c.result = some res) :
    c.todo = [] ∧ c.tasks.length = P.length ∧ (∀ g ∈ c.tasks, g.phase = Phase.done) ∧
      res = (if c.shared.errs.Has then some c.shared.errs else none) ∧
      Interleaving P (violations res) := by
  obtain ⟨htodo, hwg, hval⟩ := hinv.returned res hres
  have hdone : ∀ g ∈ c.tasks, g.phase = Phase.done := by
    have hz : c.tasks.countP (fun g => g.phase.live) = 0 := by
      rw [← hinv.count]
      exact hwg
    intro g hg
    exact phase_done_of_not_live g.phase (List.countP_eq_zero.mp hz g hg)
  have hsize := hinv.size
  rw [htodo] at hsize
  refine ⟨htodo, by simpa using hsize, hdone, hval, ?_⟩
  have hpend : Interleaving c.pendings [] := by
    refine Interleaving.done ?_
    intro l hl
    simp only [Invocation.pendings, htodo, List.map_nil, List.append_nil] at hl
    obtain ⟨g, hg, rfl⟩ := List.mem_map.mp hl
    simp [Goroutine.pending, hdone g hg]
  have h := hinv.sofar [] hpend
  rw [List.append_nil] at h
  rw [hval, (violations_of_Has c.shared.errs).1]
  exact h

/-- The value a call returns, statement by statement, is a value of `Validate` under some
schedule of whole loop iterations. -/
theorem Invocation_result_Validate {T : Type} (s : Schema T) (obj : T)
    (hret : ∀ sf ∈ s.fields, sf.returns obj) (schedule : List (Option Nat))
    (c : Invocation T) (hrun : Invocation.run schedule (Invocation.start s obj) = some c)
    (res : Option Errors) (hres : c.result = some res) :
    ∃ picks, s.Validate obj picks = some res := by
  have hinv := Inv_run _ schedule _ c (Inv_start s obj) hrun
  obtain ⟨_, _, _, hval, hinter⟩ := Inv_returned _ c hinv res hres
  have hP : (Invocation.start s obj).pendings = s.fields.map (schemaField.alone obj) := by
    simp only [Invocation.start, Invocation.pendings, List.map_nil, List.nil_append]
    apply List.map_congr_left
    intro sf hsf
    exact (alone_eq_pending obj sf (hret sf hsf)).2.symm
  rw [hP] at hinter
  obtain ⟨picks, hpicks⟩ := Validate_every_interleaving s obj hret _ hinter
  refine ⟨picks, ?_⟩
  rw [hpicks, hval, (violations_of_Has c.shared.errs).1]
  exact congrArg some ((violations_of_Has c.shared.errs).2).symm

/-- Calls of `Validate` that run at once do not reach into one another: the state of call
`k` after a schedule of all the calls is its state after its own steps alone. -/
theorem runCalls_own_steps {T : Type} (schedule : List (Nat × Option Nat))
    (calls calls' : List (Invocation T)) (h : runCalls schedule calls = some calls')
    (k : Nat) (c : Invocation T) (hk : calls[k]? = some c) :
    ∃ c', calls'[k]? = some c' ∧ Invocation.run (stepsOf k schedule) c = some c' := by
  induction schedule generalizing calls c with
  | nil =>
    simp only [runCalls, Option.some.injEq] at h
    subst h
    exact ⟨c, hk, rfl⟩
  | cons ka schedule ih =>
    obtain ⟨k₀, a⟩ := ka
    cases h₀ : calls[k₀]? with
    | none =>
      simp only [runCalls, h₀] at h
      have hne : ¬ k₀ = k := by
        intro heq
        rw [heq, hk] at h₀
        cases h₀
      have hsteps : stepsOf k ((k₀, a) :: schedule) = stepsOf k schedule := by
        simp [stepsOf, hne]
      rw [hsteps]
      exact ih calls h c hk
    | some c₀ =>
      cases hstep : c₀.step a with
      | none => simp [runCalls, h₀, hstep] at h
      | some c₁ =>
        simp only [runCalls, h₀, hstep] at h
        by_cases heq : k₀ = k
        · subst heq
          rw [hk] at h₀
          cases h₀
          have hlt : k₀ < calls.length := (List.getElem?_eq_some.mp hk).1
          obtain ⟨c', hc', hrun⟩ := ih (calls.set k₀ c₁) h c₁ (List.getElem?_set_self hlt)
          refine ⟨c', hc', ?_⟩
          have hsteps : stepsOf k₀ ((k₀, a) :: schedule) = a :: stepsOf k₀ schedule := by
            simp [stepsOf]
          rw [hsteps, Invocation.run, hstep, Option.some_bind]
          exact hrun
        · have hsteps : stepsOf k ((k₀, a) :: schedule) = stepsOf k schedule := by
            simp [stepsOf, heq]
          rw [hsteps]
          exact ih (calls.set k₀ c₁) h c (by rw [List.getElem?_set_ne heq]; exact hk)

theorem sum_map_set_add {α : Type*} (w : α → Nat) (l : List α) (i : Nat) (a b : α)
    (h : l[i]? = some a) :
    ((l.set i b).map w).sum + w a = (l.map w).sum + w b := by
  induction l generalizing i with
  | nil => simp at h
  | cons x l ih =>
    cases i with
    | zero =>
      simp only [List.getElem?_cons_zero, Option.some.injEq] at h
      subst h
      simp only [List.set_cons_zero, List.map_cons, List.sum_cons]
      omega
    | succ i =>
      simp only [List.getElem?_cons_succ] at h
      have := ih i h
      simp only [List.set_cons_succ, List.map_cons, List.sum_cons]
      omega

/-- A goroutine that has not returned, is not kept waiting by the mutex and whose slots do
not panic can run its next statement, and has less left to do after it. -/
theorem act_progress (g : Goroutine) (i : Nat) (sh : Shared) (hret : g.task.returns)
    (hlive : g.phase.live = true) (hfree : g.phase.critical = true ∨ sh.mutex = none)
    (hwg : sh.wg ≠ 0) :
    ∃ g' sh', g.act i sh = some (g', sh') ∧ g'.work < g.work := by
  obtain ⟨⟨F, name, val, rest⟩, phase⟩ := g
  cases phase with
  | loop =>
    cases rest with
    | nil =>
      exact ⟨⟨⟨F, name, val, []⟩, Phase.done⟩, ⟨sh.errs, sh.mutex, sh.wg - 1⟩,
        by simp [Goroutine.act, hwg], by simp [Goroutine.work]⟩
    | cons rule rest =>
      cases rule with
      | none =>
        exact ⟨⟨⟨F, name, val, rest⟩,
            Phase.lock ⟨name, "invalid_rule", "rule is not configured"⟩⟩, sh, rfl,
          by simp [Goroutine.work]; omega⟩
      | some f =>
        obtain ⟨⟨b, e⟩, ho⟩ := hret (some f) (List.mem_cons_self _ _) f rfl
        simp only at ho
        cases b with
        | true =>
          exact ⟨⟨⟨F, name, val, rest⟩, Phase.loop⟩, sh, by simp [Goroutine.act, ho],
            by simp [Goroutine.work]⟩
        | false =>
          cases e with
          | none =>
            exact ⟨⟨⟨F, name, val, rest⟩, Phase.lock ⟨name, "invalid", "validation failed"⟩⟩,
              sh, by simp [Goroutine.act, ho], by simp [Goroutine.work]; omega⟩
          | some err =>
            exact ⟨⟨⟨F, name, val, rest⟩,
                Phase.lock ⟨name, if err.Code ≠ "" then err.Code else "invalid",
                  if err.Message ≠ "" then err.Message else "validation failed"⟩⟩,
              sh, by simp [Goroutine.act, ho], by simp [Goroutine.work]; omega⟩
  | lock x =>
    rcases hfree with hc | hm
    · cases hc
    · exact ⟨⟨⟨F, name, val, rest⟩, Phase.add x⟩, ⟨sh.errs, some i, sh.wg⟩,
        by simp [Goroutine.act, hm], by simp [Goroutine.work]⟩
  | add x =>
    exact ⟨⟨⟨F, name, val, rest⟩, Phase.store sh.errs.list x⟩, sh, rfl,
      by simp [Goroutine.work]⟩
  | store old x =>
    exact ⟨⟨⟨F, name, val, rest⟩, Phase.unlock⟩, ⟨⟨old ++ [x]⟩, sh.mutex, sh.wg⟩, rfl,
      by simp [Goroutine.work]⟩
  | unlock =>
    exact ⟨⟨⟨F, name, val, rest⟩, Phase.loop⟩, ⟨sh.errs, none, sh.wg⟩, rfl,
      by simp [Goroutine.work]⟩
  | done => cases hlive

theorem act_returns (g g' : Goroutine) (i : Nat) (sh sh' : Shared)
    (h : g.act i sh = some (g', sh')) (hret : g.task.returns) : g'.task.returns := by
  rcases act_cases g g' i sh sh' h with
    ⟨_, _, _, _, _, hr⟩ | ⟨_, _, hg', _, _⟩ | ⟨x, _, _, hg', _⟩ | ⟨x, _, hg', _⟩ |
    ⟨old, x, _, hg', _⟩ | ⟨_, hg', _⟩
  · exact hr hret
  · rw [hg']; exact hret
  · rw [hg']; exact hret
  · rw [hg']; exact hret
  · rw [hg']; exact hret
  · rw [hg']; exact hret

theorem returns_step {T : Type} (c c' : Invocation T) (a : Option Nat) (hret : c.returns)
    (hstep : c.step a = some c') : c'.returns := by
  obtain ⟨obj, todo, result, sh, tasks⟩ := c
  obtain ⟨hrt, hrf⟩ := hret
  simp only at hrt hrf
  cases a with
  | none =>
    simp only [Invocation.step, Option.some.injEq] at hstep
    subst hstep
    cases result with
    | some res => exact ⟨hrt, hrf⟩
    | none =>
      cases todo with
      | cons f todo =>
        constructor
        · intro g hg
          have hg' : g ∈ tasks ++ [(⟨Task.start obj f, Phase.loop⟩ : Goroutine)] := hg
          rcases List.mem_append.mp hg' with h' | h'
          · exact hrt g h'
          · simp only [List.mem_singleton] at h'
            subst h'
            exact hrf f (List.mem_cons_self _ _)
        · intro f' hf'
          exact hrf f' (List.mem_cons_of_mem _ hf')
      | nil =>
        by_cases hwg : sh.wg = 0
        · simp only [Invocation.stepMain, hwg, if_true]
          exact ⟨hrt, hrf⟩
        · simp only [Invocation.stepMain, hwg, if_false]
          exact ⟨hrt, hrf⟩
  | some i =>
    cases hti : tasks[i]? with
    | none =>
      simp only [Invocation.step, Invocation.stepTask, hti, Option.some.injEq] at hstep
      subst hstep
      exact ⟨hrt, hrf⟩
    | some g =>
      cases hact : g.act i sh with
      | none => simp [Invocation.step, Invocation.stepTask, hti, hact] at hstep
      | some pair =>
        obtain ⟨g', sh'⟩ := pair
        simp only [Invocation.step, Invocation.stepTask, hti, hact,
          Option.some.injEq] at hstep
        subst hstep
        refine ⟨?_, hrf⟩
        intro g₁ hg₁
        rcases List.mem_or_eq_of_mem_set hg₁ with h' | h'
        · exact hrt g₁ h'
        · subst h'
          exact act_returns g g₁ i sh sh' hact (hrt g (List.getElem?_mem hti))

theorem Inv_step {T : Type} (P : List (List Error)) (c c' : Invocation T) (a : Option Nat)
    (hinv : c.Inv P) (h : c.step a = some c') : c'.Inv P :=
  Inv_run P [a] c c' hinv (by rw [Invocation.run, h]; rfl)

/-- A call that has not returned and whose slots do not panic can take a step that leaves
it with less to do: the call is never stuck. -/
theorem Inv_progress {T : Type} (P : List (List Error)) (c : Invocation T) (hinv : c.Inv P)
    (hret : c.returns) (hres : c.result = none) :
    ∃ a c', c.step a = some c' ∧ c'.work < c.work := by
  obtain ⟨obj, todo, result, sh, tasks⟩ := c
  simp only at hres
  subst hres
  obtain ⟨hrt, hrf⟩ := hret
  simp only at hrt hrf
  cases todo with
  | cons f todo =>
    refine ⟨none, _, rfl, ?_⟩
    simp [Invocation.stepMain, Invocation.work, Goroutine.work, Task.start]
    omega
  | nil =>
    by_cases hwg : sh.wg = 0
    · refine ⟨none, _, rfl, ?_⟩
      simp [Invocation.stepMain, Invocation.work, hwg]
    · have hheld := hinv.held
      have howner := hinv.owner
      have hcount := hinv.count
      simp only at hheld howner hcount
      have hpick : ∃ (i : Nat) (g : Goroutine), tasks[i]? = some g ∧ g.phase.live = true ∧
          (g.phase.critical = true ∨ sh.mutex = none) := by
        cases hm : sh.mutex with
        | some i =>
          have hlt := howner i hm
          have hgi : tasks[i]? = some tasks[i] := List.getElem?_eq_getElem hlt
          have hc := (hheld i _ hgi).mpr hm
          refine ⟨i, tasks[i], hgi, ?_, Or.inl hc⟩
          cases hp : (tasks[i]).phase with
          | done => rw [hp] at hc; cases hc
          | loop => rfl
          | lock x => rfl
          | add x => rfl
          | store old x => rfl
          | unlock => rfl
        | none =>
          have hpos : 0 < tasks.countP (fun g => g.phase.live) := by omega
          obtain ⟨g, hg, hlive⟩ := List.countP_pos_iff.mp hpos
          obtain ⟨i, hi⟩ := List.getElem?_of_mem hg
          exact ⟨i, g, hi, hlive, Or.inr rfl⟩
      obtain ⟨i, g, hgi, hlive, hfree⟩ := hpick
      obtain ⟨g', sh', hact, hwork⟩ :=
        act_progress g i sh (hrt g (List.getElem?_mem hgi)) hlive hfree hwg
      refine ⟨some i, ⟨obj, [], none, sh', tasks.set i g'⟩, ?_, ?_⟩
      · simp [Invocation.step, Invocation.stepTask, hgi, hact]
      · have hsum := sum_map_set_add Goroutine.work tasks i g g' hgi
        simp only [Invocation.work]
        omega

theorem Inv_reaches_return {T : Type} (P : List (List Error)) (n : Nat) :
    ∀ c : Invocation T, c.work ≤ n → c.Inv P → c.returns →
      ∃ schedule c' res, Invocation.run schedule c = some c' ∧ c'.result = some res := by
  induction n with
  | zero =>
    intro c hwork hinv hret
    cases hres : c.result with
    | some res => exact ⟨[], c, res, rfl, hres⟩
    | none =>
      have : 1 ≤ c.work := by
        simp only [Invocation.work, hres, if_true]
        omega
      omega
  | succ n ih =>
    intro c hwork hinv hret
    cases hres : c.result with
    | some res => exact ⟨[], c, res, rfl, hres⟩
    | none =>
      obtain ⟨a, c₁, hstep, hless⟩ := Inv_progress P c hinv hret hres
      obtain ⟨schedule, c', res, hrun, hres'⟩ :=
        ih c₁ (by omega) (Inv_step P c c₁ a hinv hstep) (returns_step c c₁ a hret hstep)
      exact ⟨a :: schedule, c', res, by rw [Invocation.run, hstep]; exact hrun, hres'⟩

theorem returns_run {T : Type} (schedule : List (Option Nat)) (c c' : Invocation T)
    (hret : c.returns) (h : Invocation.run schedule c = some c') : c'.returns := by
  induction schedule generalizing c with
  | nil =>
    simp only [Invocation.run, Option.some.injEq] at h
    subst h
    exact hret
  | cons a schedule ih =>
    rw [Invocation.run] at h
    cases hstep : c.step a with
    | none => rw [hstep] at h; cases h
    | some c₁ =>
      rw [hstep, Option.some_bind] at h
      exact ih c₁ (returns_step c c₁ a hret hstep) h

theorem run_append {T : Type} (schedule more : List (Option Nat)) (c c₁ : Invocation T)
    (h : Invocation.run schedule c = some c₁) :
    Invocation.run (schedule ++ more) c = Invocation.run more c₁ := by
  induction schedule generalizing c with
  | nil =>
    simp only [Invocation.run, Option.some.injEq] at h
    subst h
    rfl
  | cons a schedule ih =>
    rw [Invocation.run] at h
    cases hstep : c.step a with
    | none => rw [hstep] at h; cases h
    | some c₂ =>
      rw [hstep, Option.some_bind] at h
      rw [List.cons_append, Invocation.run, hstep, Option.some_bind]
      exact ih c₂ h

/-- C16: in every state a call of `Validate` reaches, under every schedule of its
statements: a goroutine is between `mutex.Lock()` and `mutex.Unlock()` exactly when it holds
the mutex of the call, so a goroutine inside `errs.Add` (on the invalid_rule path as on the
other) holds it; no two goroutines are there at once; the slice `Add` has read is still that
of the report when it stores the appended one, so no violation is lost: once the call has
returned, a goroutine has been started for every field, all have returned, and the value
returned holds an interleaving of all the violations of the fields.  When no slot panics
the call can always go on to return, with a value of `Validate`.  Calls that run at once
have each their own report, mutex and wait group: the state of a call after a schedule of
all the calls is its state after its own steps alone. -/
theorem Validate_appends_under_mutex {T : Type} (s : Schema T) (obj : T) :
    (∀ (schedule : List (Option Nat)) (c : Invocation T),
      Invocation.run schedule (Invocation.start s obj) = some c →
      (∀ (i : Nat) (g : Goroutine), c.tasks[i]? = some g →
        (g.phase.critical = true ↔ c.shared.mutex = some i)) ∧
      (∀ (i : Nat) (g : Goroutine) (x : Error), c.tasks[i]? = some g →
        (g.phase = Phase.add x ∨ ∃ old, g.phase = Phase.store old x) →
        c.shared.mutex = some i) ∧
      (∀ (i j : Nat) (gi gj : Goroutine), c.tasks[i]? = some gi → c.tasks[j]? = some gj →
        gi.phase.critical = true → gj.phase.critical = true → i = j) ∧
      (∀ (i : Nat) (g : Goroutine) (old : List Error) (x : Error), c.tasks[i]? = some g →
        g.phase = Phase.store old x → old = c.shared.errs.list) ∧
      (∀ res, c.result = some res →
        c.todo = [] ∧ c.tasks.length = s.fields.length ∧
        (∀ g ∈ c.tasks, g.phase = Phase.done) ∧
        Interleaving (s.fields.map (fun f => (Task.start obj f).pending)) (violations res) ∧
        (violations res).Perm
          (s.fields.map (fun f => (Task.start obj f).pending)).flatten)) ∧
    ((∀ sf ∈ s.fields, sf.returns obj) →
      ∀ (schedule : List (Option Nat)) (c : Invocation T),
        Invocation.run schedule (Invocation.start s obj) = some c →
        ∃ more c' res, Invocation.run more c = some c' ∧ c'.result = some res ∧
          ∃ picks, s.Validate obj picks = some res) ∧
    (∀ (schedule : List (Nat × Option Nat)) (calls calls' : List (Invocation T)),
      runCalls schedule calls = some calls' →
      ∀ (k : Nat) (c : Invocation T), calls[k]? = some c →
        ∃ c', calls'[k]? = some c' ∧ Invocation.run (stepsOf k schedule) c = some c') := by
  have hP : (Invocation.start s obj).pendings
      = s.fields.map (fun f => (Task.start obj f).pending) := by
    simp [Invocation.start, Invocation.pendings]
  refine ⟨?_, ?_, ?_⟩
  · intro schedule c hrun
    have hinv := Inv_run _ schedule _ c (Inv_start s obj) hrun
    refine ⟨hinv.held, ?_, ?_, hinv.fresh, ?_⟩
    · intro i g x hg hphase
      refine (hinv.held i g hg).mp ?_
      rcases hphase with h | ⟨old, h⟩
      · rw [h]; rfl
      · rw [h]; rfl
    · intro i j gi gj hgi hgj hci hcj
      have hi := (hinv.held i gi hgi).mp hci
      have hj := (hinv.held j gj hgj).mp hcj
      rw [hi] at hj
      exact Option.some.inj hj
    · intro res hres
      obtain ⟨htodo, hlen, hdone, _, hinter⟩ := Inv_returned _ c hinv res hres
      rw [hP] at hinter hlen
      exact ⟨htodo, by simpa using hlen, hdone, hinter, hinter.perm⟩
  · intro hret schedule c hrun
    have hinv := Inv_run _ schedule _ c (Inv_start s obj) hrun
    have hstart : (Invocation.start s obj).returns :=
      ⟨fun g hg => (by cases hg), fun f hf => hret f hf⟩
    have hc : c.returns := returns_run schedule _ c hstart hrun
    obtain ⟨more, c', res, hmore, hres⟩ := Inv_reaches_return _ c.work c (Nat.le_refl _) hinv hc
    refine ⟨more, c', res, hmore, hres, ?_⟩
    have hall : Invocation.run (schedule ++ more) (Invocation.start s obj) = some c' := by
      rw [run_append schedule more _ c hrun]
      exact hmore
    exact Invocation_result_Validate s obj hret (schedule ++ more) c' hall res hres
  · intro schedule calls calls' h k c hk
    exact runCalls_own_steps schedule calls calls' h k c hk

theorem exampleSteps_return :
    (Invocation.run exampleSteps (Invocation.start exampleSchema ("ab", 15))).isSome = true := by
  rfl

theorem Validate_appends_under_mutex_witness :
    Interleaving (exampleSchema.fields.map (fun f => (Task.start ("ab", 15) f).pending))
      [⟨"code", "min_length", "minimum length not satisfied"⟩,
        ⟨"age", "min", "value below minimum"⟩, ⟨"code", "one_of", "value not allowed"⟩] :=
  (((Validate_appends_under_mutex exampleSchema ("ab", 15)).1 exampleSteps
    ((Invocation.run exampleSteps (Invocation.start exampleSchema ("ab", 15))).get
      exampleSteps_return)
    (Option.some_get exampleSteps_return).symm).2.2.2.2
    (some ⟨[⟨"code", "min_length", "minimum length not satisfied"⟩,
        ⟨"age", "min", "value below minimum"⟩, ⟨"code", "one_of", "value not allowed"⟩]⟩)
    (by rfl)).2.2.2.1

end validx
